import Mathlib

/-!
# Validator set of `core/types/validator_account.go`

A shallow embedding of the validator list, its stake mutations, the stake
accounting views and the weighted selector, followed by the properties
proved about them.

Modelling conventions.

* `common.Address` is a 20-byte array.  It is represented by the number its
  bytes spell in big-endian order, which is what `Addr.Hash().Big()` returns
  (`Hash()` left-pads the 20 bytes with zeros).  The bound `< 2 ^ 160` is part
  of the type.  Go's `==` on addresses and the comparison of their `Hex()`
  strings are both equality of the 20 bytes.
* `*big.Int` balances are unbounded integers.  The first part of the file
  reads a list by value (`Validator`, `AddValidator`, `RemoveValidator`): each
  record carries the integer its `Balance` points to.  `NewValidator` keeps
  the pointer it is given and `Balance.Add`/`Balance.Sub` work in place, so
  records and amounts can share one integer; `ValidatorPtr`, `SharedList`,
  `AddValidatorPtr` and `RemoveValidatorPtr` carry the pointers and a store.
  `AddValidatorPtr_values` and `RemoveValidatorPtr_values` show that both
  readings agree when the record of the address shares its balance with no
  other record.  Properties that depend on sharing are stated on the pointers.
* `sort.Sort` is an in-place comparison sort that only uses `Less`; it is
  represented by an insertion sort driven by `Less`.
* A Go panic (division by zero in `big.Int.Div`) is the `none` result.
* The candidates of the selector are `*big.Int` pointers and its weight map is
  keyed by pointer.  A pointer is a natural number and `heap` gives the integer
  it refers to, so that equal pointers refer to equal integers.
* `rankByWordCount` and its `Pair` type are declared in another file of the
  package; they are modelled from the spec and marked as such.  The order in
  which a Go map hands over its entries is not fixed; where it matters it is
  an explicit argument (`ValidatorByDistanceAndWeightRun`).
* A `*ValidatorList` that may be nil is an `Option ValidatorList`, with `none`
  for the nil pointer (`NewValidatorList`).
-/

namespace Wormholes

/-! ## Addresses and hashes -/

/-- The number of 20-byte addresses, `2 ^ 160`. -/
def addressSpace : Nat := 2 ^ 160

/-- Go `common.Address`, represented by the big-endian value of its 20 bytes. -/
structure Address where
  /-- The value of `Hash().Big()` on the address. -/
  big : Nat
  /-- Twenty bytes hold a number below `2 ^ 160`. -/
  lt : big < addressSpace
deriving DecidableEq

/-- Go `common.Address{}`: the all-zero address. -/
def Address.empty : Address := ⟨0, by decide⟩

/-- Big-endian value of a byte string, most significant byte first
(`big.Int.SetBytes`). -/
def bigEndian (bs : List (Fin 256)) : Nat :=
  bs.foldl (fun acc b => acc * 256 + b.val) 0

/-- Go `common.BigToAddress(b)`: `BytesToAddress(b.Bytes())`.  `Bytes()` is the
big-endian absolute value of `b`, and `SetBytes` keeps the last 20 bytes, so
the address holds `|b| mod 2 ^ 160`. -/
def BigToAddress (b : Int) : Address :=
  ⟨b.natAbs % addressSpace, Nat.mod_lt _ (by decide)⟩

/-- Go `common.BytesToAddress(b)`: if `b` is longer than 20 bytes it is cropped
from the left; the bytes are then right-aligned in the address. -/
def BytesToAddress (b : List (Fin 256)) : Address :=
  ⟨bigEndian (b.drop (b.length - 20)) % addressSpace, Nat.mod_lt _ (by decide)⟩

/-- Go `common.Hash`: a 32-byte array. -/
structure Hash where
  /-- The bytes, most significant first. -/
  bytes : List (Fin 256)
  /-- A hash has 32 bytes. -/
  len : bytes.length = 32

/-- Go `Hash.Big()`: the 32 bytes read as a big-endian integer. -/
def Hash.Big (h : Hash) : Nat := bigEndian h.bytes

/-! ## Validator records and the validator list -/

/-- The `Validator` struct. -/
structure Validator where
  Addr : Address
  Balance : Int
  Proxy : Address
deriving DecidableEq

/-- Source function `NewValidator`, read by value: `balance` is the integer
behind the `*big.Int` the record keeps.  The pointer itself is kept by the
record built in `AddValidatorPtr`. -/
def NewValidator (addr : Address) (balance : Int) (proxy : Address) : Validator :=
  { Addr := addr, Balance := balance, Proxy := proxy }

/-- The `ValidatorList` struct. -/
structure ValidatorList where
  Validators : List Validator
deriving DecidableEq

/-- The list with no records. -/
def ValidatorList.nil : ValidatorList := ⟨[]⟩

/-- Source method `ValidatorList.Len`. -/
def ValidatorList.Len (vl : ValidatorList) : Nat := vl.Validators.length

/-- Source method `ValidatorList.Less`, on the two records rather than their indices:
`a.Address().Hash().Big().Cmp(b.Address().Hash().Big()) < 0`. -/
def Less (a b : Validator) : Bool := decide (a.Addr.big < b.Addr.big)

/-- One insertion step of the sort: `x` goes before the first record that is
not `Less` than it. -/
def sortInsert (x : Validator) : List Validator → List Validator
  | [] => [x]
  | y :: ys => if Less y x then y :: sortInsert x ys else x :: y :: ys

/-- Go `sort.Sort(vl)` on the record slice. -/
def sortSort : List Validator → List Validator
  | [] => []
  | x :: xs => sortInsert x (sortSort xs)

/-- The loop of `AddValidator` looking for a record with address `addr`, read
by value; `pre` holds the records already passed.  `none` when the loop runs
to its end without returning.  The in-place `v.Balance.Add(v.Balance,
balance)` is the new value of that record's balance; its effect on other
holders of the same `*big.Int` is in `addLoopPtr`. -/
def addLoop (addr : Address) (balance : Int) (proxy : Address)
    (pre : List Validator) : List Validator → Option (List Validator)
  | [] => none
  | v :: vs =>
    if v.Addr = addr then
      some (sortSort (pre ++
        { v with
          Balance := v.Balance + balance
          Proxy := if proxy ≠ Address.empty then proxy else v.Proxy } :: vs))
    else addLoop addr balance proxy (pre ++ [v]) vs

/-- Source method `ValidatorList.AddValidator`, read by value: the returned
flag and the list afterwards.  With the pointers: `AddValidatorPtr`. -/
def AddValidator (vl : ValidatorList) (addr : Address) (balance : Int)
    (proxy : Address) : Bool × ValidatorList :=
  match addLoop addr balance proxy [] vl.Validators with
  | some vs => (true, ⟨vs⟩)
  | none => (true, ⟨sortSort (vl.Validators ++ [NewValidator addr balance proxy])⟩)

/-- The loop of `RemoveValidator`, read by value; `pre` is `vl.Validators[:i]`
and the argument list is `vl.Validators[i:]`.  `none` when the loop runs to
its end without returning.  The `Sub` of the `Cmp == 0` branch acts on the
record that is deleted and leaves no trace in the values of the list; its
effect on the shared integer, like that of the `Sub` of the first branch, is
in `removeLoopPtr`. -/
def removeLoop (addr : Address) (balance : Int)
    (pre : List Validator) : List Validator → Option (List Validator)
  | [] => none
  | v :: vs =>
    if v.Addr = addr then
      if v.Balance > balance then
        some (sortSort (pre ++ { v with Balance := v.Balance - balance } :: vs))
      else if v.Balance = balance then
        some (pre ++ vs)
      else
        some (pre ++ vs)
    else removeLoop addr balance (pre ++ [v]) vs

/-- Source method `ValidatorList.RemoveValidator`, read by value: the returned
flag and the list afterwards.  With the pointers: `RemoveValidatorPtr`. -/
def RemoveValidator (vl : ValidatorList) (addr : Address) (balance : Int) :
    Bool × ValidatorList :=
  match removeLoop addr balance [] vl.Validators with
  | some vs => (true, ⟨vs⟩)
  | none => (false, vl)

/-- Source method `ValidatorList.TotalStakeBalance`. -/
def TotalStakeBalance (vl : ValidatorList) : Int :=
  vl.Validators.foldl (fun total voter => total + voter.Balance) 0

/-- The loop of `StakeBalance` over the records. -/
def stakeLoop (address : Address) : List Validator → Int
  | [] => 0
  | st :: rest =>
    if st.Addr ≠ address ∧ st.Proxy ≠ address then stakeLoop address rest
    else st.Balance

/-- Source method `ValidatorList.StakeBalance`. -/
def StakeBalance (vl : ValidatorList) (address : Address) : Int :=
  stakeLoop address vl.Validators

/-- Source method `ValidatorList.ConvertToAddress`. -/
def ConvertToAddress (vl : ValidatorList) : List Address :=
  vl.Validators.map (fun validator => validator.Addr)

/-- Source method `ValidatorList.ConvertToBigInt`. -/
def ConvertToBigInt (vl : ValidatorList) : List Int :=
  vl.Validators.map (fun validator => (validator.Addr.big : Int))

/-- Source method `ValidatorList.Exist`. -/
def Exist (vl : ValidatorList) (addr : Address) : Bool :=
  vl.Validators.any (fun v => decide (v.Addr = addr) || decide (v.Proxy = addr))

/-- Source method `ValidatorList.ExistProxy`. -/
def ExistProxy (vl : ValidatorList) (addr : Address) : Bool :=
  vl.Validators.any (fun v => decide (v.Addr = addr) && decide (v.Proxy ≠ Address.empty))

/-! ## Weighted selection -/

/-- The `maxValue` of `ValidatorByDistanceAndWeight`: the numeric key of the
address `0xffffffffffffffffffffffffffffffffffffffff`, that is `2 ^ 160 - 1`. -/
def maxValue : Int := Int.ofNat (addressSpace - 1)

/-- Go `big.Int.Div`: Euclidean division, which panics on a zero divisor. -/
def bigDiv (a b : Int) : Option Int :=
  if b = 0 then none else some (a / b)

/-- The seed point `x`: `common.BytesToAddress(randomHash[12:]).Hash().Big()`. -/
def seedPoint (randomHash : Hash) : Int :=
  ((BytesToAddress (randomHash.bytes.drop 12)).big : Int)

/-- The body of the candidate loop: the weight `w` stored for a candidate of
value `v`, or `none` when the division panics. -/
def candidateWeight (vl : ValidatorList) (x v : Int) : Option Int :=
  let sub1 : Int := ((v - x).natAbs : Int)
  let sub2 := maxValue - sub1
  if sub1 < sub2 then
    bigDiv (sub1 * StakeBalance vl (BigToAddress v)) (TotalStakeBalance vl)
  else
    bigDiv (sub2 * StakeBalance vl (BigToAddress v)) (TotalStakeBalance vl)

/-- Modelled from the spec: the `Pair` type, which is not in the source file.
An entry of the weight map: the candidate handle (`Key`, a `*big.Int`
pointer, here its identity) and the weight computed for it (`Value`). -/
structure Pair where
  Key : Nat
  Value : Int
deriving DecidableEq

/-- The assignment `addrToWeightMap[v] = w` on a map keyed by pointer identity, held as the
list of its entries: an entry with the same key is overwritten, a new key
adds an entry. -/
def mapSet (v : Nat) (w : Int) : List Pair → List Pair
  | [] => [⟨v, w⟩]
  | p :: ps => if p.Key = v then ⟨v, w⟩ :: ps else p :: mapSet v w ps

/-- The candidate loop of `ValidatorByDistanceAndWeight`.  A candidate is a
`*big.Int`: `heap` gives the integer each pointer refers to.  `none` when a
division panics. -/
def weightLoop (vl : ValidatorList) (heap : Nat → Int) (x : Int) :
    List Nat → List Pair → Option (List Pair)
  | [], m => some m
  | v :: rest, m =>
    match candidateWeight vl x (heap v) with
    | none => none
    | some w => weightLoop vl heap x rest (mapSet v w m)

/-- One insertion step of the ranking: `p` goes before the first entry whose
weight does not exceed its own. -/
def rankInsert (p : Pair) : List Pair → List Pair
  | [] => [p]
  | q :: qs => if p.Value < q.Value then q :: rankInsert p qs else p :: q :: qs

/-- Modelled from the spec: `rankByWordCount`, which is not in the source
file.  The spec has it rank all candidates by weight descending, with an
implementation-defined order among equal weights; here entries of equal
weight keep the order in which they entered the map. -/
def rankByWordCount : List Pair → List Pair
  | [] => []
  | p :: ps => rankInsert p (rankByWordCount ps)

/-- The final loop of `ValidatorByDistanceAndWeight`, from index `i` on:
entries are appended while `i < k`. -/
def collectLoop (heap : Nat → Int) (k : Int) : Nat → List Pair → List Address
  | _, [] => []
  | i, p :: ps =>
    if (i : Int) < k then BigToAddress (heap p.Key) :: collectLoop heap k (i + 1) ps
    else []

/-- Source method `ValidatorList.ValidatorByDistanceAndWeight`.  The candidates `addr` are
pointers into `heap`; the result is `none` when the call panics. -/
def ValidatorByDistanceAndWeight (vl : ValidatorList) (heap : Nat → Int)
    (addr : List Nat) (k : Int) (randomHash : Hash) : Option (List Address) :=
  match weightLoop vl heap (seedPoint randomHash) addr [] with
  | none => none
  | some addrToWeightMap => some (collectLoop heap k 0 (rankByWordCount addrToWeightMap))

/-- The weight `ValidatorByDistanceAndWeight` stores for a candidate of value
`v`, when it stores one. -/
def weightOf (vl : ValidatorList) (randomHash : Hash) (v : Int) : Option Int :=
  candidateWeight vl (seedPoint randomHash) v

/-! ## Sequences of stake changes -/

/-- A call on the list: `AddValidator` or `RemoveValidator` with its
arguments. -/
inductive Op where
  | add (addr : Address) (balance : Int) (proxy : Address)
  | remove (addr : Address) (balance : Int)

/-- The list after one call. -/
def applyOp (vl : ValidatorList) : Op → ValidatorList
  | .add addr balance proxy => (AddValidator vl addr balance proxy).2
  | .remove addr balance => (RemoveValidator vl addr balance).2

/-- The list after a sequence of calls, starting from `vl`. -/
def runOps (vl : ValidatorList) (ops : List Op) : ValidatorList :=
  ops.foldl applyOp vl

/-- The records are strictly ascending by the numeric key of their address. -/
def StrictlyAscending (vl : ValidatorList) : Prop :=
  vl.Validators.Pairwise (fun a b => a.Addr.big < b.Addr.big)

/-- The address keys of a list. -/
def keys (l : List Validator) : List Nat := l.map (fun v => v.Addr.big)

/-- The addresses of the records, in list order. -/
def addrs (vl : ValidatorList) : List Address := vl.Validators.map (fun v => v.Addr)

/-- Three addresses used in the concrete scenarios. -/
def addrA : Address := BigToAddress 110

/-- Second scenario address. -/
def addrB : Address := BigToAddress 105

/-- Third scenario address. -/
def addrC : Address := BigToAddress 150

/-- The scenario list: `A` staked with 100, `B` with 200 and `C` with 50,
none with a proxy, in ascending order of address key. -/
def stakedABC : ValidatorList :=
  ⟨[⟨addrB, 200, Address.empty⟩, ⟨addrA, 100, Address.empty⟩, ⟨addrC, 50, Address.empty⟩]⟩

/-- The weight of a candidate of value `v` as an integer: the value held by
`weightOf`, and `0` where the division panics. -/
def weightValue (vl : ValidatorList) (randomHash : Hash) (v : Int) : Int :=
  (weightOf vl randomHash v).getD 0

/-- The weight map after the candidate loop when no key repeats: one entry
per candidate, in candidate order. -/
def entriesOf (vl : ValidatorList) (heap : Nat → Int) (randomHash : Hash)
    (addr : List Nat) : List Pair :=
  addr.map (fun v => (⟨v, weightValue vl randomHash (heap v)⟩ : Pair))

/-- The scenario candidates: pointer `0` refers to the key of `A`, pointer `1`
to the key of `B`, pointer `2` to the key of `C`. -/
def heapABC : Nat → Int := fun p => [110, 105, 150].getD p 0

/-- The scenario seed: 32 bytes whose value is 100, so that `A`, `B` and `C`
lie at distances 10, 5 and 50 from the seed point. -/
def seed100 : Hash := ⟨List.replicate 31 0 ++ [100], by decide⟩

/-- The first record in list order whose `Addr` or whose `Proxy` is `a`. -/
def firstMatch (vl : ValidatorList) (a : Address) : Option Validator :=
  vl.Validators.find? (fun st => decide (st.Addr = a) || decide (st.Proxy = a))

/-- A list with the single record of `A`, staked with 100, whose proxy is its
own address; it is the list after `AddValidator(A, 100, A)` on the empty
list. -/
def selfProxyA : ValidatorList := ⟨[⟨addrA, 100, addrA⟩]⟩

/-- The amount of an `AddValidator` call is not negative; a `RemoveValidator`
call passes whatever its amount. -/
def Op.addNonneg : Op → Bool
  | .add _ balance _ => decide (0 ≤ balance)
  | .remove _ _ => true

/-- Every record of the list has a balance that is not negative. -/
def BalancesNonneg (vl : ValidatorList) : Prop :=
  ∀ r ∈ vl.Validators, 0 ≤ r.Balance

/-- Modelled from the spec: one run of the selector, with the order in which
the weight map hands its entries to the ranking made explicit.  The weight
map is a Go map, whose iteration order is not fixed and may change from run
to run, and the ranking (`rankByWordCount`, not in the source file) has, in
the spec's words, no secondary key when weights tie.  The argument `iter` is
the iteration order of the run: it rearranges the entries of the map. -/
def ValidatorByDistanceAndWeightRun (iter : List Pair → List Pair) (vl : ValidatorList)
    (heap : Nat → Int) (addr : List Nat) (k : Int) (randomHash : Hash) :
    Option (List Address) :=
  match weightLoop vl heap (seedPoint randomHash) addr [] with
  | none => none
  | some addrToWeightMap =>
    some (collectLoop heap k 0 (rankByWordCount (iter addrToWeightMap)))

/-- An iteration order hands over every entry of the map once. -/
def IsIteration (iter : List Pair → List Pair) : Prop :=
  ∀ m, (iter m).Perm m

/-- The loop of `NewValidatorList`.  The first argument is the local
`validatorList`, a `*ValidatorList`: `none` is the nil pointer.  The loop body
reads and writes `validatorList.Validators`, which panics through a nil
pointer; the result is `none` when the loop panics. -/
def newListLoop : Option ValidatorList → List Validator → Option (Option ValidatorList)
  | validatorList, [] => some validatorList
  | none, _ :: _ => none
  | some vl, v :: rest => newListLoop (some ⟨vl.Validators ++ [v]⟩) rest

/-- Source function `NewValidatorList`: `var validatorList *ValidatorList`
declares a nil pointer, the loop appends through it, and it is returned.  The
result is `none` when the call panics and `some p` when it returns the
pointer `p`. -/
def NewValidatorList (validators : List Validator) : Option (Option ValidatorList) :=
  newListLoop none validators

/-- Source method `ValidatorList.Len` called through a pointer: it reads
`vl.Validators`, which panics (`none`) on the nil pointer. -/
def lenThrough : Option ValidatorList → Option Nat
  | none => none
  | some vl => some vl.Len

/-- The records of the list whose `Addr` differs from `addr`, in list order. -/
def othersOf (vl : ValidatorList) (addr : Address) : List Validator :=
  vl.Validators.filter (fun v => decide (v.Addr ≠ addr))

/-- The distance the candidate loop multiplies by the stake, for seed point
`x` and candidate value `v`: `sub1` when `sub1.Cmp(sub2) < 0`, else `sub2`. -/
def distanceOf (x v : Int) : Int :=
  let sub1 : Int := ((v - x).natAbs : Int)
  let sub2 := maxValue - sub1
  if sub1 < sub2 then sub1 else sub2

/-! ## Balances as shared integers

`Validator.Balance` is a `*big.Int`.  `NewValidator` keeps the pointer it is
given, and `Balance.Add` and `Balance.Sub` change the integer behind a pointer
in place, so two records, or a record and an amount, may share one integer.
The definitions below carry the balance as the pointer and the integers in a
store; `valuesOf` reads a list back as values. -/

/-- The `Validator` struct with its `Balance` field as the `*big.Int` pointer
it is. -/
structure ValidatorPtr where
  Addr : Address
  /-- The pointer, not the integer it refers to. -/
  Balance : Nat
  Proxy : Address
deriving DecidableEq

/-- A validator list together with the integer each `*big.Int` pointer refers
to. -/
structure SharedList where
  /-- The integer behind each pointer. -/
  store : Nat → Int
  Validators : List ValidatorPtr

/-- The store after the integer behind pointer `p` is set to `x`, as
`z.Add(..)` and `z.Sub(..)` do for their receiver `z`. -/
def storeSet (store : Nat → Int) (p : Nat) (x : Int) : Nat → Int :=
  fun q => if q = p then x else store q

/-- Source method `ValidatorList.Less` on two records holding pointers. -/
def LessPtr (a b : ValidatorPtr) : Bool := decide (a.Addr.big < b.Addr.big)

/-- One insertion step of the sort on records holding pointers. -/
def sortInsertPtr (x : ValidatorPtr) : List ValidatorPtr → List ValidatorPtr
  | [] => [x]
  | y :: ys => if LessPtr y x then y :: sortInsertPtr x ys else x :: y :: ys

/-- Go `sort.Sort(vl)` on records holding pointers. -/
def sortSortPtr : List ValidatorPtr → List ValidatorPtr
  | [] => []
  | x :: xs => sortInsertPtr x (sortSortPtr xs)

/-- The loop of `AddValidator` with the amount `balance` a pointer:
`v.Balance.Add(v.Balance, balance)` changes the integer behind `v.Balance`.
The result is the store and the records after the branch that returns, and
`none` when the loop runs to its end. -/
def addLoopPtr (store : Nat → Int) (addr : Address) (balance : Nat) (proxy : Address)
    (pre : List ValidatorPtr) : List ValidatorPtr → Option ((Nat → Int) × List ValidatorPtr)
  | [] => none
  | v :: vs =>
    if v.Addr = addr then
      some (storeSet store v.Balance (store v.Balance + store balance),
        sortSortPtr (pre ++
          { v with Proxy := if proxy ≠ Address.empty then proxy else v.Proxy } :: vs))
    else addLoopPtr store addr balance proxy (pre ++ [v]) vs

/-- Source method `ValidatorList.AddValidator` with the amount a pointer.  A
new record keeps the pointer `balance` itself (`NewValidator`). -/
def AddValidatorPtr (sl : SharedList) (addr : Address) (balance : Nat) (proxy : Address) :
    Bool × SharedList :=
  match addLoopPtr sl.store addr balance proxy [] sl.Validators with
  | some (store, vs) => (true, ⟨store, vs⟩)
  | none => (true, ⟨sl.store, sortSortPtr (sl.Validators ++ [⟨addr, balance, proxy⟩])⟩)

/-- The loop of `RemoveValidator` with the amount `balance` a pointer.  In the
`Cmp > 0` and `Cmp == 0` branches `v.Balance.Sub(v.Balance, balance)` changes
the integer behind `v.Balance`; the last branch changes no integer. -/
def removeLoopPtr (store : Nat → Int) (addr : Address) (balance : Nat)
    (pre : List ValidatorPtr) : List ValidatorPtr → Option ((Nat → Int) × List ValidatorPtr)
  | [] => none
  | v :: vs =>
    if v.Addr = addr then
      if store v.Balance > store balance then
        some (storeSet store v.Balance (store v.Balance - store balance),
          sortSortPtr (pre ++ v :: vs))
      else if store v.Balance = store balance then
        some (storeSet store v.Balance (store v.Balance - store balance), pre ++ vs)
      else
        some (store, pre ++ vs)
    else removeLoopPtr store addr balance (pre ++ [v]) vs

/-- Source method `ValidatorList.RemoveValidator` with the amount a pointer. -/
def RemoveValidatorPtr (sl : SharedList) (addr : Address) (balance : Nat) :
    Bool × SharedList :=
  match removeLoopPtr sl.store addr balance [] sl.Validators with
  | some (store, vs) => (true, ⟨store, vs⟩)
  | none => (false, sl)

/-- A record read as values: its balance is the integer behind its pointer. -/
def valueOf (store : Nat → Int) (r : ValidatorPtr) : Validator :=
  ⟨r.Addr, store r.Balance, r.Proxy⟩

/-- A list read as values. -/
def valuesOf (sl : SharedList) : ValidatorList :=
  ⟨sl.Validators.map (valueOf sl.store)⟩

/-- The balance pointers held by the records of the list. -/
def pointersOf (sl : SharedList) : List Nat :=
  sl.Validators.map (fun r => r.Balance)

/-- The record of `addr` shares its balance with no record of another
address. -/
def Unshared (sl : SharedList) (addr : Address) : Prop :=
  ∀ v ∈ sl.Validators, ∀ u ∈ sl.Validators,
    v.Addr = addr → u.Addr ≠ addr → u.Balance ≠ v.Balance

/-- A store for the examples: pointer 0 refers to 100, pointer 1 to 25, any
other pointer to 0. -/
def storeJoin : Nat → Int := fun p => [100, 25].getD p 0

/-- The list after `A` and then `B` join the empty list with one and the same
amount pointer (pointer 0, worth 100): the two records share their balance. -/
def sharedAB : SharedList :=
  (AddValidatorPtr (AddValidatorPtr ⟨storeJoin, []⟩ addrA 0 Address.empty).2
    addrB 0 Address.empty).2

/-- The list with the single record of `A`, whose balance is pointer 0, worth
100. -/
def singleA : SharedList := ⟨storeJoin, [⟨addrA, 0, Address.empty⟩]⟩

/-- The scenario list with balances behind pointers 0, 1 and 2, and pointer 3
worth 25. -/
def unsharedABC : SharedList :=
  ⟨fun p => [100, 200, 50, 25].getD p 0,
    [⟨addrB, 1, Address.empty⟩, ⟨addrA, 0, Address.empty⟩, ⟨addrC, 2, Address.empty⟩]⟩

/-! ## The sort -/

theorem sortInsert_perm (x : Validator) (l : List Validator) :
    (sortInsert x l).Perm (x :: l) := by
  induction l with
  | nil => exact List.Perm.refl _
  | cons y ys ih =>
    unfold sortInsert
    split
    · exact (List.Perm.cons y ih).trans (List.Perm.swap x y ys)
    · exact List.Perm.refl _

theorem sortSort_perm (l : List Validator) : (sortSort l).Perm l := by
  induction l with
  | nil => exact List.Perm.refl _
  | cons x xs ih =>
    unfold sortSort
    exact (sortInsert_perm x _).trans (List.Perm.cons x ih)

theorem sortInsert_sorted (x : Validator) (l : List Validator)
    (h : l.Pairwise (fun a b => a.Addr.big ≤ b.Addr.big)) :
    (sortInsert x l).Pairwise (fun a b => a.Addr.big ≤ b.Addr.big) := by
  induction l with
  | nil => simp [sortInsert]
  | cons y ys ih =>
    rw [List.pairwise_cons] at h
    unfold sortInsert
    split
    · rename_i hlt
      have hyx : y.Addr.big < x.Addr.big := by simpa [Less] using hlt
      rw [List.pairwise_cons]
      refine ⟨?_, ih h.2⟩
      intro z hz
      rcases List.mem_cons.1 ((sortInsert_perm x ys).mem_iff.1 hz) with rfl | hz
      · exact Nat.le_of_lt hyx
      · exact h.1 z hz
    · rename_i hlt
      have hxy : x.Addr.big ≤ y.Addr.big := by simpa [Less] using hlt
      rw [List.pairwise_cons]
      refine ⟨?_, List.pairwise_cons.2 h⟩
      intro z hz
      rcases List.mem_cons.1 hz with rfl | hz
      · exact hxy
      · exact Nat.le_trans hxy (h.1 z hz)

theorem sortSort_sorted (l : List Validator) :
    (sortSort l).Pairwise (fun a b => a.Addr.big ≤ b.Addr.big) := by
  induction l with
  | nil => simp [sortSort]
  | cons x xs ih =>
    unfold sortSort
    exact sortInsert_sorted x _ ih

/-- A list already ascending by key is left as it is by the sort. -/
theorem sortSort_of_sorted (l : List Validator)
    (h : l.Pairwise (fun a b => a.Addr.big ≤ b.Addr.big)) : sortSort l = l := by
  induction l with
  | nil => rfl
  | cons x xs ih =>
    rw [List.pairwise_cons] at h
    unfold sortSort
    rw [ih h.2]
    cases xs with
    | nil => rfl
    | cons y ys =>
      have hxy : x.Addr.big ≤ y.Addr.big := h.1 y (List.mem_cons_self _ _)
      unfold sortInsert
      have : Less y x = false := by simpa [Less] using hxy
      simp [this]

theorem Address.big_injective {a b : Address} (h : a.big = b.big) : a = b := by
  cases a; cases b; cases h; rfl

/-- Ascending with pairwise different keys is strictly ascending. -/
theorem strict_of_sorted_nodup (l : List Validator)
    (hs : l.Pairwise (fun a b => a.Addr.big ≤ b.Addr.big))
    (hn : (keys l).Nodup) :
    l.Pairwise (fun a b => a.Addr.big < b.Addr.big) := by
  unfold keys at hn
  rw [List.Nodup, List.pairwise_map] at hn
  exact (hs.and hn).imp (fun h => Nat.lt_of_le_of_ne h.1 h.2)

theorem nodup_keys_of_strict (l : List Validator)
    (h : l.Pairwise (fun a b => a.Addr.big < b.Addr.big)) : (keys l).Nodup := by
  unfold keys
  rw [List.Nodup, List.pairwise_map]
  exact h.imp (fun h => Nat.ne_of_lt h)

/-- Sorting a list with pairwise different keys gives a strictly ascending
list. -/
theorem sortSort_strict (l : List Validator) (hn : (keys l).Nodup) :
    (sortSort l).Pairwise (fun a b => a.Addr.big < b.Addr.big) := by
  apply strict_of_sorted_nodup _ (sortSort_sorted l)
  exact ((sortSort_perm l).map _).nodup_iff.2 hn

/-! ## The two mutation loops -/

theorem addLoop_none (addr : Address) (balance : Int) (proxy : Address)
    (pre l : List Validator) :
    addLoop addr balance proxy pre l = none ↔ ∀ v ∈ l, v.Addr ≠ addr := by
  induction l generalizing pre with
  | nil => simp [addLoop]
  | cons v vs ih =>
    unfold addLoop
    by_cases h : v.Addr = addr
    · simp [h]
    · simp [h, ih]

theorem addLoop_some (addr : Address) (balance : Int) (proxy : Address)
    (pre l r : List Validator) (h : addLoop addr balance proxy pre l = some r) :
    ∃ l1 v l2, l = l1 ++ v :: l2 ∧ v.Addr = addr ∧ (∀ u ∈ l1, u.Addr ≠ addr) ∧
      r = sortSort (pre ++ l1 ++
        { v with
          Balance := v.Balance + balance
          Proxy := if proxy ≠ Address.empty then proxy else v.Proxy } :: l2) := by
  induction l generalizing pre with
  | nil => simp [addLoop] at h
  | cons v vs ih =>
    unfold addLoop at h
    by_cases hv : v.Addr = addr
    · rw [if_pos hv] at h
      refine ⟨[], v, vs, rfl, hv, by simp, ?_⟩
      simpa using (Option.some.inj h).symm
    · rw [if_neg hv] at h
      obtain ⟨l1, w, l2, hl, hw, hl1, hr⟩ := ih _ h
      refine ⟨v :: l1, w, l2, by simp [hl], hw, ?_, ?_⟩
      · intro u hu
        rcases List.mem_cons.1 hu with rfl | hu
        · exact hv
        · exact hl1 u hu
      · simpa using hr

theorem removeLoop_none (addr : Address) (balance : Int) (pre l : List Validator) :
    removeLoop addr balance pre l = none ↔ ∀ v ∈ l, v.Addr ≠ addr := by
  induction l generalizing pre with
  | nil => simp [removeLoop]
  | cons v vs ih =>
    unfold removeLoop
    by_cases h : v.Addr = addr
    · simp only [h, if_true]
      constructor
      · intro hn
        split at hn
        · cases hn
        · split at hn <;> cases hn
      · intro hall
        exact absurd h (hall v (List.mem_cons_self _ _))
    · simp [h, ih]

theorem removeLoop_some (addr : Address) (balance : Int)
    (pre l r : List Validator) (h : removeLoop addr balance pre l = some r) :
    ∃ l1 v l2, l = l1 ++ v :: l2 ∧ v.Addr = addr ∧ (∀ u ∈ l1, u.Addr ≠ addr) ∧
      r = if v.Balance > balance then
            sortSort (pre ++ l1 ++ { v with Balance := v.Balance - balance } :: l2)
          else pre ++ l1 ++ l2 := by
  induction l generalizing pre with
  | nil => simp [removeLoop] at h
  | cons v vs ih =>
    unfold removeLoop at h
    by_cases hv : v.Addr = addr
    · rw [if_pos hv] at h
      refine ⟨[], v, vs, rfl, hv, by simp, ?_⟩
      by_cases hgt : v.Balance > balance
      · rw [if_pos hgt] at h
        rw [if_pos hgt]
        simpa using (Option.some.inj h).symm
      · rw [if_neg hgt] at h
        rw [if_neg hgt]
        split at h <;> simpa using (Option.some.inj h).symm
    · rw [if_neg hv] at h
      obtain ⟨l1, w, l2, hl, hw, hl1, hr⟩ := ih _ h
      refine ⟨v :: l1, w, l2, by simp [hl], hw, ?_, ?_⟩
      · intro u hu
        rcases List.mem_cons.1 hu with rfl | hu
        · exact hv
        · exact hl1 u hu
      · simpa using hr

/-! ## Ordering -/

theorem AddValidator_strict (vl : ValidatorList) (addr : Address) (balance : Int)
    (proxy : Address) (h : StrictlyAscending vl) :
    StrictlyAscending (AddValidator vl addr balance proxy).2 := by
  have hn := nodup_keys_of_strict _ h
  unfold AddValidator
  cases hl : addLoop addr balance proxy [] vl.Validators with
  | none =>
    have hnot := (addLoop_none addr balance proxy [] vl.Validators).1 hl
    show (sortSort _).Pairwise _
    apply sortSort_strict
    unfold keys at hn ⊢
    rw [List.map_append, List.nodup_append]
    refine ⟨hn, by simp, ?_⟩
    intro a ha hb
    simp only [List.map_cons, List.map_nil, List.mem_singleton] at hb
    obtain ⟨v, hv, hva⟩ := List.mem_map.1 ha
    apply hnot v hv
    apply Address.big_injective
    rw [hva, hb]
    rfl
  | some r =>
    obtain ⟨l1, v, l2, hsplit, -, -, hr⟩ := addLoop_some addr balance proxy [] _ r hl
    show r.Pairwise _
    rw [hr]
    apply sortSort_strict
    unfold keys at hn ⊢
    rw [hsplit] at hn
    simpa using hn

theorem RemoveValidator_strict (vl : ValidatorList) (addr : Address) (balance : Int)
    (h : StrictlyAscending vl) :
    StrictlyAscending (RemoveValidator vl addr balance).2 := by
  have hn := nodup_keys_of_strict _ h
  unfold RemoveValidator
  cases hl : removeLoop addr balance [] vl.Validators with
  | none => exact h
  | some r =>
    obtain ⟨l1, v, l2, hsplit, -, -, hr⟩ := removeLoop_some addr balance [] _ r hl
    show r.Pairwise _
    rw [hr]
    split
    · apply sortSort_strict
      unfold keys at hn ⊢
      rw [hsplit] at hn
      simpa using hn
    · unfold StrictlyAscending at h
      rw [hsplit] at h
      refine h.sublist ?_
      simp

theorem runOps_strict (ops : List Op) (vl : ValidatorList) (h : StrictlyAscending vl) :
    StrictlyAscending (runOps vl ops) := by
  induction ops generalizing vl with
  | nil => exact h
  | cons op ops ih =>
    show StrictlyAscending (runOps (applyOp vl op) ops)
    apply ih
    cases op with
    | add addr balance proxy => exact AddValidator_strict vl addr balance proxy h
    | remove addr balance => exact RemoveValidator_strict vl addr balance h

/-- C1. Ordering invariant: for every sequence of `AddValidator` and
`RemoveValidator` calls applied to the empty list, after each call (after the
first `n` calls, for every `n`) the records are strictly ascending by the
numeric key of their address, and no two records share an address. -/
theorem ordering_invariant (ops : List Op) (n : Nat) :
    StrictlyAscending (runOps ValidatorList.nil (ops.take n)) ∧
    ((runOps ValidatorList.nil (ops.take n)).Validators.map (fun v => v.Addr)).Nodup := by
  have hs : StrictlyAscending (runOps ValidatorList.nil (ops.take n)) :=
    runOps_strict _ _ List.Pairwise.nil
  refine ⟨hs, ?_⟩
  rw [List.Nodup, List.pairwise_map]
  exact hs.imp (fun hab heq => by rw [heq] at hab; exact Nat.lt_irrefl _ hab)

/-! ## Stake accounting of the mutations -/

theorem foldl_balance (l : List Validator) (a : Int) :
    l.foldl (fun total voter => total + voter.Balance) a
      = a + (l.map (fun v => v.Balance)).sum := by
  induction l generalizing a with
  | nil => simp
  | cons v vs ih => simp [ih, add_assoc]

theorem total_eq_sum (vl : ValidatorList) :
    TotalStakeBalance vl = (vl.Validators.map (fun v => v.Balance)).sum := by
  unfold TotalStakeBalance
  rw [foldl_balance, zero_add]

/-- C4. Withdraw failure: `RemoveValidator(addr, m)` returns false exactly
when no record has `Addr == addr` (so also when `addr` is only the `Proxy` of
some record), and then the list is the list before the call. -/
theorem withdraw_failure (vl : ValidatorList) (addr : Address) (m : Int) :
    ((RemoveValidator vl addr m).1 = false ↔ ∀ v ∈ vl.Validators, v.Addr ≠ addr) ∧
    ((RemoveValidator vl addr m).1 = false → (RemoveValidator vl addr m).2 = vl) := by
  unfold RemoveValidator
  cases hl : removeLoop addr m [] vl.Validators with
  | none =>
    exact ⟨⟨fun _ => (removeLoop_none addr m [] vl.Validators).1 hl, fun _ => rfl⟩,
      fun _ => rfl⟩
  | some res =>
    refine ⟨⟨fun h => (by cases h), fun h => ?_⟩, fun h => (by cases h)⟩
    rw [(removeLoop_none addr m [] vl.Validators).2 h] at hl
    cases hl

/-! ## Selection: failure -/

theorem bigDiv_none (a b : Int) : bigDiv a b = none ↔ b = 0 := by
  unfold bigDiv
  by_cases h : b = 0
  · rw [if_pos h]
    exact ⟨fun _ => h, fun _ => rfl⟩
  · rw [if_neg h]
    exact ⟨fun hn => (by cases hn), fun h0 => absurd h0 h⟩

theorem candidateWeight_none (vl : ValidatorList) (x v : Int) :
    candidateWeight vl x v = none ↔ TotalStakeBalance vl = 0 := by
  unfold candidateWeight
  by_cases h : ((v - x).natAbs : Int) < maxValue - ((v - x).natAbs : Int)
  · simp only [h, if_true]
    exact bigDiv_none _ _
  · simp only [h, if_false]
    exact bigDiv_none _ _

theorem candidateWeight_some (vl : ValidatorList) (x v : Int)
    (h : TotalStakeBalance vl ≠ 0) :
    ∃ w, candidateWeight vl x v = some w := by
  cases hw : candidateWeight vl x v with
  | none => exact absurd ((candidateWeight_none vl x v).1 hw) h
  | some w => exact ⟨w, rfl⟩

theorem weightLoop_none (vl : ValidatorList) (heap : Nat → Int) (x : Int)
    (addr : List Nat) (m : List Pair) :
    weightLoop vl heap x addr m = none ↔ addr ≠ [] ∧ TotalStakeBalance vl = 0 := by
  induction addr generalizing m with
  | nil => simp [weightLoop]
  | cons v rest ih =>
    unfold weightLoop
    cases hw : candidateWeight vl x (heap v) with
    | none =>
      have h0 := (candidateWeight_none vl x (heap v)).1 hw
      simp [h0]
    | some w =>
      have h0 : TotalStakeBalance vl ≠ 0 := by
        intro h0
        rw [(candidateWeight_none vl x (heap v)).2 h0] at hw
        cases hw
      simp only [ih, h0, and_false]

/-- C5. Selection failure: `ValidatorByDistanceAndWeight` fails (the division
by `TotalStakeBalance()` panics, so no address list is returned) exactly when
the candidate list is non-empty and the total stake is zero; with an empty
candidate list it returns the empty list, whatever the total stake. -/
theorem selection_failure (vl : ValidatorList) (heap : Nat → Int) (addr : List Nat)
    (k : Int) (randomHash : Hash) :
    (ValidatorByDistanceAndWeight vl heap addr k randomHash = none ↔
      addr ≠ [] ∧ TotalStakeBalance vl = 0) ∧
    ValidatorByDistanceAndWeight vl heap [] k randomHash = some [] := by
  constructor
  · unfold ValidatorByDistanceAndWeight
    cases hw : weightLoop vl heap (seedPoint randomHash) addr [] with
    | none => simpa using (weightLoop_none vl heap _ addr []).1 hw
    | some m =>
      refine ⟨fun h => (by cases h), fun h => ?_⟩
      rw [(weightLoop_none vl heap _ addr []).2 h] at hw
      cases hw
  · simp [ValidatorByDistanceAndWeight, weightLoop, rankByWordCount, collectLoop]

/-! ## Selection: the weight map, the ranking and the final loop -/

theorem mapSet_fresh (v : Nat) (w : Int) (m : List Pair)
    (h : ∀ p ∈ m, p.Key ≠ v) : mapSet v w m = m ++ [⟨v, w⟩] := by
  induction m with
  | nil => rfl
  | cons p ps ih =>
    unfold mapSet
    rw [if_neg (h p (List.mem_cons_self _ _)),
      ih (fun q hq => h q (List.mem_cons_of_mem _ hq))]
    rfl

theorem weightLoop_fresh (vl : ValidatorList) (heap : Nat → Int) (randomHash : Hash)
    (ht : TotalStakeBalance vl ≠ 0) (addr : List Nat) (m : List Pair)
    (hd : addr.Nodup) (hm : ∀ p ∈ m, p.Key ∉ addr) :
    weightLoop vl heap (seedPoint randomHash) addr m
      = some (m ++ entriesOf vl heap randomHash addr) := by
  induction addr generalizing m with
  | nil => simp [weightLoop, entriesOf]
  | cons v rest ih =>
    rw [List.nodup_cons] at hd
    obtain ⟨w, hw⟩ := candidateWeight_some vl (seedPoint randomHash) (heap v) ht
    have hval : weightValue vl randomHash (heap v) = w := by
      unfold weightValue weightOf
      rw [hw]
      rfl
    unfold weightLoop
    rw [hw]
    show weightLoop vl heap (seedPoint randomHash) rest (mapSet v w m) = _
    rw [mapSet_fresh v w m (fun p hp hpv => hm p hp (by rw [hpv]; exact List.mem_cons_self _ _))]
    rw [ih (m ++ [(⟨v, w⟩ : Pair)]) hd.2]
    · simp [entriesOf, hval]
    · intro p hp
      rcases List.mem_append.1 hp with h | h
      · exact fun hmem => hm p h (List.mem_cons_of_mem _ hmem)
      · rw [List.mem_singleton] at h
        rw [h]
        exact hd.1

theorem rankInsert_perm (p : Pair) (l : List Pair) : (rankInsert p l).Perm (p :: l) := by
  induction l with
  | nil => exact List.Perm.refl _
  | cons q qs ih =>
    unfold rankInsert
    split
    · exact (List.Perm.cons q ih).trans (List.Perm.swap p q qs)
    · exact List.Perm.refl _

theorem rankByWordCount_perm (l : List Pair) : (rankByWordCount l).Perm l := by
  induction l with
  | nil => exact List.Perm.refl _
  | cons p ps ih =>
    unfold rankByWordCount
    exact (rankInsert_perm p _).trans (List.Perm.cons p ih)

theorem rankInsert_sorted (p : Pair) (l : List Pair)
    (h : l.Pairwise (fun a b => b.Value ≤ a.Value)) :
    (rankInsert p l).Pairwise (fun a b => b.Value ≤ a.Value) := by
  induction l with
  | nil => simp [rankInsert]
  | cons q qs ih =>
    rw [List.pairwise_cons] at h
    unfold rankInsert
    split
    · rename_i hlt
      rw [List.pairwise_cons]
      refine ⟨?_, ih h.2⟩
      intro z hz
      rcases List.mem_cons.1 ((rankInsert_perm p qs).mem_iff.1 hz) with rfl | hz
      · exact le_of_lt hlt
      · exact h.1 z hz
    · rename_i hlt
      have hqp : q.Value ≤ p.Value := not_lt.1 hlt
      rw [List.pairwise_cons]
      refine ⟨?_, List.pairwise_cons.2 h⟩
      intro z hz
      rcases List.mem_cons.1 hz with rfl | hz
      · exact hqp
      · exact le_trans (h.1 z hz) hqp

theorem rankByWordCount_sorted (l : List Pair) :
    (rankByWordCount l).Pairwise (fun a b => b.Value ≤ a.Value) := by
  induction l with
  | nil => simp [rankByWordCount]
  | cons p ps ih =>
    unfold rankByWordCount
    exact rankInsert_sorted p _ ih

theorem collectLoop_eq (heap : Nat → Int) (k : Int) (i : Nat) (ps : List Pair) :
    collectLoop heap k i ps
      = (ps.take (k - i).toNat).map (fun p => BigToAddress (heap p.Key)) := by
  induction ps generalizing i with
  | nil => simp [collectLoop]
  | cons p ps ih =>
    unfold collectLoop
    by_cases h : (i : Int) < k
    · rw [if_pos h, ih (i + 1)]
      have hk : (k - (i : Int)).toNat = (k - ((i + 1 : Nat) : Int)).toNat + 1 := by
        push_cast
        omega
      rw [hk, List.take_succ_cons, List.map_cons]
    · rw [if_neg h]
      have hk : (k - (i : Int)).toNat = 0 := by omega
      rw [hk, List.take_zero, List.map_nil]

/-- With a non-zero total stake and candidates that are different pointers,
the call returns the first `k` ranked map entries, turned into addresses. -/
theorem ValidatorByDistanceAndWeight_eq (vl : ValidatorList) (heap : Nat → Int)
    (addr : List Nat) (k : Int) (randomHash : Hash)
    (ht : TotalStakeBalance vl ≠ 0) (hd : addr.Nodup) :
    ValidatorByDistanceAndWeight vl heap addr k randomHash
      = some (((rankByWordCount (entriesOf vl heap randomHash addr)).take k.toNat).map
          (fun p => BigToAddress (heap p.Key))) := by
  unfold ValidatorByDistanceAndWeight
  rw [weightLoop_fresh vl heap randomHash ht addr [] hd (by simp)]
  simp [collectLoop_eq]

/-! ## Selection: size, membership and order of the result -/

theorem entriesOf_key_mem (vl : ValidatorList) (heap : Nat → Int) (randomHash : Hash)
    (addr : List Nat) (p : Pair) (h : p ∈ entriesOf vl heap randomHash addr) :
    p.Key ∈ addr ∧ p.Value = weightValue vl randomHash (heap p.Key) := by
  unfold entriesOf at h
  obtain ⟨v, hv, rfl⟩ := List.mem_map.1 h
  exact ⟨hv, rfl⟩

/-- C6. Selection boundedness: with a positive total stake, pairwise distinct
candidate identifiers and `k >= 0`, `ValidatorByDistanceAndWeight` returns a
list of exactly `min(k, len(candidates))` addresses. -/
theorem selection_length (vl : ValidatorList) (heap : Nat → Int) (addr : List Nat)
    (k : Int) (randomHash : Hash) (ht : 0 < TotalStakeBalance vl)
    (hd : (addr.map heap).Nodup) (hk : 0 ≤ k) :
    ∃ res, ValidatorByDistanceAndWeight vl heap addr k randomHash = some res ∧
      (res.length : Int) = min k (addr.length : Int) := by
  refine ⟨_, ValidatorByDistanceAndWeight_eq vl heap addr k randomHash (ne_of_gt ht)
    (List.Nodup.of_map _ hd), ?_⟩
  rw [List.length_map, List.length_take,
    (rankByWordCount_perm (entriesOf vl heap randomHash addr)).length_eq]
  unfold entriesOf
  rw [List.length_map]
  omega

/-- Witness for C6: two of the three scenario candidates are asked for. -/
theorem selection_length_witness :
    0 < TotalStakeBalance stakedABC ∧ ([0, 1, 2].map heapABC).Nodup ∧ (0 : Int) ≤ 2 ∧
    ∃ res, ValidatorByDistanceAndWeight stakedABC heapABC [0, 1, 2] 2 seed100 = some res ∧
      (res.length : Int) = min 2 (([0, 1, 2] : List Nat).length : Int) :=
  ⟨by decide, by decide, by decide,
    selection_length stakedABC heapABC [0, 1, 2] 2 seed100 (by decide) (by decide) (by decide)⟩

/-- On `[0, 2 ^ 160)` the key of `BigToAddress v` is `v`. -/
theorem BigToAddress_big (v : Int) (h0 : 0 ≤ v) (h1 : v < (addressSpace : Int)) :
    ((BigToAddress v).big : Int) = v := by
  unfold BigToAddress
  have hlt : v.natAbs < addressSpace := by omega
  show ((v.natAbs % addressSpace : Nat) : Int) = v
  rw [Nat.mod_eq_of_lt hlt]
  omega

/-- The ranked entries that are kept come from the weight map. -/
theorem mem_take_rank (l : List Pair) (n : Nat) (p : Pair)
    (h : p ∈ (rankByWordCount l).take n) : p ∈ l :=
  (rankByWordCount_perm l).mem_iff.1 (List.mem_of_mem_take h)

/-- C7. Selection output is a duplicate-free subset of the candidates: with a
positive total stake and pairwise distinct candidate identifiers in
`[0, 2 ^ 160)`, every returned address has its numeric key among the candidate
identifiers, the returned addresses are pairwise distinct, and `BigToAddress`
gives each candidate the address whose key it is. -/
theorem selection_subset (vl : ValidatorList) (heap : Nat → Int) (addr : List Nat)
    (k : Int) (randomHash : Hash) (ht : 0 < TotalStakeBalance vl)
    (hd : (addr.map heap).Nodup)
    (hr : ∀ p ∈ addr, 0 ≤ heap p ∧ heap p < (addressSpace : Int)) :
    ∃ res, ValidatorByDistanceAndWeight vl heap addr k randomHash = some res ∧
      (∀ a ∈ res, (a.big : Int) ∈ addr.map heap) ∧ res.Nodup ∧
      ∀ p ∈ addr, ((BigToAddress (heap p)).big : Int) = heap p := by
  have hinv : ∀ p ∈ addr, ((BigToAddress (heap p)).big : Int) = heap p :=
    fun p hp => BigToAddress_big _ (hr p hp).1 (hr p hp).2
  have hkey : ∀ p ∈ (rankByWordCount (entriesOf vl heap randomHash addr)).take k.toNat,
      p.Key ∈ addr :=
    fun p hp => (entriesOf_key_mem vl heap randomHash addr p (mem_take_rank _ _ p hp)).1
  refine ⟨_, ValidatorByDistanceAndWeight_eq vl heap addr k randomHash (ne_of_gt ht)
    (List.Nodup.of_map _ hd), ?_, ?_, hinv⟩
  · intro a ha
    obtain ⟨p, hp, rfl⟩ := List.mem_map.1 ha
    rw [hinv p.Key (hkey p hp)]
    exact List.mem_map_of_mem _ (hkey p hp)
  · apply List.Nodup.of_map (fun a : Address => (a.big : Int))
    rw [List.map_map]
    have hcongr : List.map ((fun a : Address => (a.big : Int)) ∘
          fun p : Pair => BigToAddress (heap p.Key))
          ((rankByWordCount (entriesOf vl heap randomHash addr)).take k.toNat)
        = List.map (fun p : Pair => heap p.Key)
          ((rankByWordCount (entriesOf vl heap randomHash addr)).take k.toNat) :=
      List.map_congr_left (fun p hp => hinv p.Key (hkey p hp))
    rw [hcongr]
    have hsub : ((rankByWordCount (entriesOf vl heap randomHash addr)).take k.toNat).Sublist
        (rankByWordCount (entriesOf vl heap randomHash addr)) := List.take_sublist _ _
    refine (hsub.map _).nodup ?_
    refine (((rankByWordCount_perm _).map _).nodup_iff).2 ?_
    unfold entriesOf
    rw [List.map_map]
    exact hd

/-- Witness for C7: the scenario candidates are keys below `2 ^ 160`. -/
theorem selection_subset_witness :
    0 < TotalStakeBalance stakedABC ∧ ([0, 1, 2].map heapABC).Nodup ∧
    (∀ p ∈ [0, 1, 2], 0 ≤ heapABC p ∧ heapABC p < (addressSpace : Int)) ∧
    ∃ res, ValidatorByDistanceAndWeight stakedABC heapABC [0, 1, 2] 2 seed100 = some res ∧
      (∀ a ∈ res, (a.big : Int) ∈ [0, 1, 2].map heapABC) ∧ res.Nodup ∧
      ∀ p ∈ [0, 1, 2], ((BigToAddress (heapABC p)).big : Int) = heapABC p :=
  ⟨by decide, by decide, by decide,
    selection_subset stakedABC heapABC [0, 1, 2] 2 seed100 (by decide) (by decide)
      (by decide)⟩

theorem weightOf_eq_value (vl : ValidatorList) (randomHash : Hash) (v : Int)
    (ht : TotalStakeBalance vl ≠ 0) :
    weightOf vl randomHash v = some (weightValue vl randomHash v) := by
  obtain ⟨w, hw⟩ := candidateWeight_some vl (seedPoint randomHash) v ht
  unfold weightValue weightOf
  rw [hw]
  rfl

/-- C8. Top-K by weight: with a positive total stake and pairwise distinct
candidates, the returned addresses are those of a list `sel` of candidates
that is in non-increasing order of weight, and every candidate outside `sel`
weighs at most as much as every candidate in it.  In the scenario (stakes
100, 200, 50 at distances 10, 5, 50) the weights are 2, 2, 7 and selecting
`k = 2` returns `C` first. -/
theorem selection_top_k (vl : ValidatorList) (heap : Nat → Int) (addr : List Nat)
    (k : Int) (randomHash : Hash) (ht : 0 < TotalStakeBalance vl)
    (hd : (addr.map heap).Nodup) :
    (∃ sel : List Nat,
      ValidatorByDistanceAndWeight vl heap addr k randomHash
        = some (sel.map (fun p => BigToAddress (heap p))) ∧
      (∀ p ∈ sel, p ∈ addr) ∧
      sel.Pairwise (fun p q =>
        weightValue vl randomHash (heap q) ≤ weightValue vl randomHash (heap p)) ∧
      (∀ p ∈ addr, p ∉ sel → ∀ q ∈ sel,
        weightValue vl randomHash (heap p) ≤ weightValue vl randomHash (heap q))) ∧
    (∀ p ∈ addr,
      weightOf vl randomHash (heap p) = some (weightValue vl randomHash (heap p))) ∧
    (weightOf stakedABC seed100 110 = some 2 ∧ weightOf stakedABC seed100 105 = some 2 ∧
      weightOf stakedABC seed100 150 = some 7 ∧
      ∃ rest, ValidatorByDistanceAndWeight stakedABC heapABC [0, 1, 2] 2 seed100
        = some (addrC :: rest)) := by
  have hmem : ∀ p ∈ rankByWordCount (entriesOf vl heap randomHash addr),
      p.Key ∈ addr ∧ p.Value = weightValue vl randomHash (heap p.Key) :=
    fun p hp => entriesOf_key_mem vl heap randomHash addr p
      ((rankByWordCount_perm _).mem_iff.1 hp)
  have hsorted := rankByWordCount_sorted (entriesOf vl heap randomHash addr)
  refine ⟨⟨((rankByWordCount (entriesOf vl heap randomHash addr)).take k.toNat).map
      (fun p => p.Key), ?_, ?_, ?_, ?_⟩, ?_, ?_⟩
  · rw [ValidatorByDistanceAndWeight_eq vl heap addr k randomHash (ne_of_gt ht)
      (List.Nodup.of_map _ hd), List.map_map]
    rfl
  · intro p hp
    obtain ⟨q, hq, rfl⟩ := List.mem_map.1 hp
    exact (hmem q (List.mem_of_mem_take hq)).1
  · rw [List.pairwise_map]
    refine List.Pairwise.imp_of_mem ?_ (hsorted.sublist (List.take_sublist _ _))
    intro a b ha hb hab
    rw [← (hmem a (List.mem_of_mem_take ha)).2, ← (hmem b (List.mem_of_mem_take hb)).2]
    exact hab
  · intro p hp hnot q hq
    obtain ⟨b, hb, rfl⟩ := List.mem_map.1 hq
    have hpe : (⟨p, weightValue vl randomHash (heap p)⟩ : Pair)
        ∈ rankByWordCount (entriesOf vl heap randomHash addr) := by
      apply (rankByWordCount_perm _).mem_iff.2
      unfold entriesOf
      exact List.mem_map.2 ⟨p, hp, rfl⟩
    rw [← List.take_append_drop k.toNat
      (rankByWordCount (entriesOf vl heap randomHash addr))] at hpe hsorted
    rcases List.mem_append.1 hpe with h | h
    · exact absurd (List.mem_map.2 ⟨_, h, rfl⟩) hnot
    · have hle := (List.pairwise_append.1 hsorted).2.2 b hb _ h
      rw [(hmem b (List.mem_of_mem_take hb)).2] at hle
      exact hle
  · intro p _
    exact weightOf_eq_value vl randomHash (heap p) (ne_of_gt ht)
  · exact ⟨by decide, by decide, by decide, ⟨[addrA], by decide⟩⟩

/-- Witness for C8: the scenario itself. -/
theorem selection_top_k_witness :
    0 < TotalStakeBalance stakedABC ∧ ([0, 1, 2].map heapABC).Nodup ∧
    ValidatorByDistanceAndWeight stakedABC heapABC [0, 1, 2] 2 seed100
      = some [addrC, addrA] ∧
    ∃ sel : List Nat,
      ValidatorByDistanceAndWeight stakedABC heapABC [0, 1, 2] 2 seed100
        = some (sel.map (fun p => BigToAddress (heapABC p))) ∧
      (∀ p ∈ sel, p ∈ [0, 1, 2]) ∧
      sel.Pairwise (fun p q =>
        weightValue stakedABC seed100 (heapABC q) ≤ weightValue stakedABC seed100 (heapABC p)) ∧
      (∀ p ∈ [0, 1, 2], p ∉ sel → ∀ q ∈ sel,
        weightValue stakedABC seed100 (heapABC p) ≤ weightValue stakedABC seed100 (heapABC q)) :=
  ⟨by decide, by decide, by decide,
    (selection_top_k stakedABC heapABC [0, 1, 2] 2 seed100 (by decide) (by decide)).1⟩

/-! ## The weight formula -/

theorem foldl_bigEndian (ys : List (Fin 256)) (a : Nat) :
    ys.foldl (fun acc b => acc * 256 + b.val) a = a * 256 ^ ys.length + bigEndian ys := by
  unfold bigEndian
  induction ys generalizing a with
  | nil => simp
  | cons y ys ih =>
    rw [List.foldl_cons, ih, List.foldl_cons, ih (0 * 256 + y.val), List.length_cons]
    ring

theorem bigEndian_append (xs ys : List (Fin 256)) :
    bigEndian (xs ++ ys) = bigEndian xs * 256 ^ ys.length + bigEndian ys := by
  show List.foldl _ 0 (xs ++ ys) = _
  rw [List.foldl_append, foldl_bigEndian]
  rfl

/-- The seed point is the 32-byte seed, read big-endian, modulo `2 ^ 160`. -/
theorem seedPoint_eq (randomHash : Hash) :
    seedPoint randomHash = ((randomHash.Big % 2 ^ 160 : Nat) : Int) := by
  have hlen : (randomHash.bytes.drop 12).length = 20 := by
    rw [List.length_drop, randomHash.len]
  have hsplit : randomHash.Big
      = bigEndian (randomHash.bytes.take 12) * 256 ^ 20 + bigEndian (randomHash.bytes.drop 12) := by
    unfold Hash.Big
    conv_lhs => rw [← List.take_append_drop 12 randomHash.bytes]
    rw [bigEndian_append, hlen]
  have hpow : (256 : Nat) ^ 20 = 2 ^ 160 := by norm_num
  unfold seedPoint BytesToAddress
  show ((bigEndian ((randomHash.bytes.drop 12).drop ((randomHash.bytes.drop 12).length - 20))
    % addressSpace : Nat) : Int) = _
  rw [hlen, Nat.sub_self, List.drop_zero, hsplit, hpow]
  unfold addressSpace
  rw [Nat.add_comm, Nat.add_mul_mod_self_right]

theorem maxValue_eq : maxValue = 2 ^ 160 - 1 := by
  unfold maxValue addressSpace
  norm_num

/-- C9. Weight formula: with `MAX = 2 ^ 160 - 1` and `x` the seed point, which
is the 32-byte seed read big-endian modulo `2 ^ 160`, for a positive total
stake and a candidate `v` in `[0, MAX]` the weight stored for `v` is
`floor(min(|v - x|, MAX - |v - x|) * StakeBalance(BigToAddress(v)) /
TotalStakeBalance())`, and `BigToAddress(v)` is the address of key `v`. -/
theorem weight_formula (vl : ValidatorList) (randomHash : Hash) (v : Int)
    (ht : 0 < TotalStakeBalance vl) (h0 : 0 ≤ v) (h1 : v ≤ maxValue) :
    maxValue = 2 ^ 160 - 1 ∧
    seedPoint randomHash = ((randomHash.Big % 2 ^ 160 : Nat) : Int) ∧
    ((BigToAddress v).big : Int) = v ∧
    weightOf vl randomHash v = some ⌊(((min |v - seedPoint randomHash|
          (maxValue - |v - seedPoint randomHash|)
        * StakeBalance vl (BigToAddress v) : Int) : ℚ)) / ((TotalStakeBalance vl : Int) : ℚ)⌋ := by
  refine ⟨maxValue_eq, seedPoint_eq randomHash, ?_, ?_⟩
  · apply BigToAddress_big v h0
    have : maxValue = (addressSpace : Int) - 1 := by
      unfold maxValue addressSpace
      norm_num
    omega
  · obtain ⟨n, hn⟩ := Int.eq_ofNat_of_zero_le (le_of_lt ht)
    have hne : TotalStakeBalance vl ≠ 0 := ne_of_gt ht
    have hfloor : ∀ a : Int, bigDiv a (TotalStakeBalance vl)
        = some ⌊((a : ℚ)) / ((TotalStakeBalance vl : Int) : ℚ)⌋ := by
      intro a
      unfold bigDiv
      rw [if_neg hne, hn]
      have := Rat.floor_intCast_div_natCast a n
      rw [Int.cast_natCast, this]
    unfold weightOf candidateWeight
    simp only [Int.natCast_natAbs]
    by_cases hlt : |v - seedPoint randomHash| < maxValue - |v - seedPoint randomHash|
    · rw [if_pos hlt, min_eq_left (le_of_lt hlt)]
      exact hfloor _
    · rw [if_neg hlt, min_eq_right (not_lt.1 hlt)]
      exact hfloor _

/-- Witness for C9: candidate `C` of the scenario. -/
theorem weight_formula_witness :
    0 < TotalStakeBalance stakedABC ∧ (0 : Int) ≤ 150 ∧ (150 : Int) ≤ maxValue ∧
    weightOf stakedABC seed100 150 = some ⌊(((min |150 - seedPoint seed100|
          (maxValue - |150 - seedPoint seed100|)
        * StakeBalance stakedABC (BigToAddress 150) : Int) : ℚ))
          / ((TotalStakeBalance stakedABC : Int) : ℚ)⌋ :=
  ⟨by decide, by decide, by decide,
    (weight_formula stakedABC seed100 150 (by decide) (by decide) (by decide)).2.2.2⟩

/-! ## Stake lookup -/

/-- C10. Stake lookup: `StakeBalance(a)` is the balance of the first record in
list order whose `Addr` or whose `Proxy` is `a`, and `0` when no record has
`Addr == a` or `Proxy == a`. -/
theorem stake_lookup (vl : ValidatorList) (a : Address) :
    StakeBalance vl a
      = (match firstMatch vl a with
        | some st => st.Balance
        | none => 0) ∧
    ((∀ st ∈ vl.Validators, st.Addr ≠ a ∧ st.Proxy ≠ a) → StakeBalance vl a = 0) := by
  have hloop : ∀ l : List Validator, stakeLoop a l
      = (match l.find? (fun st => decide (st.Addr = a) || decide (st.Proxy = a)) with
        | some st => st.Balance
        | none => 0) := by
    intro l
    induction l with
    | nil => rfl
    | cons st rest ih =>
      unfold stakeLoop
      by_cases h : st.Addr ≠ a ∧ st.Proxy ≠ a
      · rw [if_pos h, ih, List.find?_cons]
        simp [h.1, h.2]
      · rw [if_neg h, List.find?_cons]
        have : (decide (st.Addr = a) || decide (st.Proxy = a)) = true := by
          by_cases h1 : st.Addr = a
          · simp [h1]
          · by_cases h2 : st.Proxy = a
            · simp [h2]
            · exact absurd ⟨h1, h2⟩ h
        simp [this]
  refine ⟨hloop vl.Validators, fun hnone => ?_⟩
  unfold StakeBalance
  rw [hloop]
  have : vl.Validators.find? (fun st => decide (st.Addr = a) || decide (st.Proxy = a)) = none := by
    rw [List.find?_eq_none]
    intro st hst
    simp [(hnone st hst).1, (hnone st hst).2]
  rw [this]

/-! ## Proxy resolution -/

theorem stakeLoop_first (a : Address) (l1 l2 : List Validator) (r : Validator)
    (hr : r.Addr = a ∨ r.Proxy = a) (h1 : ∀ u ∈ l1, u.Addr ≠ a ∧ u.Proxy ≠ a) :
    stakeLoop a (l1 ++ r :: l2) = r.Balance := by
  induction l1 with
  | nil =>
    show stakeLoop a (r :: l2) = r.Balance
    unfold stakeLoop
    rw [if_neg]
    intro hne
    rcases hr with h | h
    · exact hne.1 h
    · exact hne.2 h
  | cons u us ih =>
    show stakeLoop a (u :: (us ++ r :: l2)) = r.Balance
    unfold stakeLoop
    rw [if_pos (h1 u (List.mem_cons_self _ _))]
    exact ih (fun w hw => h1 w (List.mem_cons_of_mem _ hw))

/-- Counterexample to C11: after `A` and `B` both join with the same proxy
`C`, the record of `A` is in the list with proxy `C` and balance 100, while
`StakeBalance(C)` is 200, the balance of `B`, whose record comes first. -/
theorem proxy_resolution_counterexample :
    (⟨addrA, 100, addrC⟩ : Validator)
      ∈ (runOps ValidatorList.nil [.add addrA 100 addrC, .add addrB 200 addrC]).Validators ∧
    addrC ≠ Address.empty ∧
    StakeBalance (runOps ValidatorList.nil [.add addrA 100 addrC, .add addrB 200 addrC]) addrC
      = 200 ∧
    ¬ (∀ r ∈ (runOps ValidatorList.nil
          [.add addrA 100 addrC, .add addrB 200 addrC]).Validators,
        r.Proxy ≠ Address.empty →
        StakeBalance (runOps ValidatorList.nil [.add addrA 100 addrC, .add addrB 200 addrC])
          r.Proxy = r.Balance) := by
  refine ⟨by decide, by decide, by decide, ?_⟩
  intro h
  have h100 := h ⟨addrA, 100, addrC⟩ (by decide) (by decide)
  revert h100
  decide

/-- C11 (amended). Proxy resolution of stake: in every list reached from the
empty list by `AddValidator`/`RemoveValidator` calls, for every record `r`
with a non-empty proxy `p` such that no record before `r` in list order has
`Addr == p` or `Proxy == p`, `StakeBalance(p)` is `r.Balance`. -/
theorem proxy_resolution (ops : List Op) (r : Validator) (l1 l2 : List Validator)
    (hsplit : (runOps ValidatorList.nil ops).Validators = l1 ++ r :: l2)
    (hp : r.Proxy ≠ Address.empty)
    (hfirst : ∀ u ∈ l1, u.Addr ≠ r.Proxy ∧ u.Proxy ≠ r.Proxy) :
    StakeBalance (runOps ValidatorList.nil ops) r.Proxy = r.Balance := by
  have _ := hp
  unfold StakeBalance
  rw [hsplit]
  exact stakeLoop_first r.Proxy l1 l2 r (Or.inr rfl) hfirst

/-- Witness for C11 (amended): in the list of the counterexample the record
of `B` is the first one, and `StakeBalance(C)` is its balance. -/
theorem proxy_resolution_witness :
    (runOps ValidatorList.nil [.add addrA 100 addrC, .add addrB 200 addrC]).Validators
      = [] ++ (⟨addrB, 200, addrC⟩ : Validator) :: [⟨addrA, 100, addrC⟩] ∧
    (⟨addrB, 200, addrC⟩ : Validator).Proxy ≠ Address.empty ∧
    StakeBalance (runOps ValidatorList.nil [.add addrA 100 addrC, .add addrB 200 addrC])
      (⟨addrB, 200, addrC⟩ : Validator).Proxy = (⟨addrB, 200, addrC⟩ : Validator).Balance :=
  ⟨by decide, by decide,
    proxy_resolution [.add addrA 100 addrC, .add addrB 200 addrC] ⟨addrB, 200, addrC⟩ []
      [⟨addrA, 100, addrC⟩] (by decide) (by decide) (by simp)⟩

/-! ## Existence queries -/

/-- Counterexample to C12: the record of `A` has its own address as proxy;
`ExistProxy(A)` is true although no record with `Addr == A` has a proxy that
is non-empty and distinct from its own `Addr`. -/
theorem exist_proxy_counterexample :
    (AddValidator ValidatorList.nil addrA 100 addrA).2 = selfProxyA ∧
    ExistProxy selfProxyA addrA = true ∧
    ¬ (∃ v ∈ selfProxyA.Validators,
        v.Addr = addrA ∧ v.Proxy ≠ Address.empty ∧ v.Proxy ≠ v.Addr) := by
  decide

/-- C12 (amended). Characterisation of `ExistProxy`: `ExistProxy(a)` is true
exactly when some record has `Addr == a` and that same record has a non-empty
`Proxy`; in particular it is false for an address that is the `Addr` of no
record, such as one that only appears as a `Proxy`. -/
theorem exist_proxy_iff (vl : ValidatorList) (a : Address) :
    (ExistProxy vl a = true ↔
      ∃ v ∈ vl.Validators, v.Addr = a ∧ v.Proxy ≠ Address.empty) ∧
    ((∀ v ∈ vl.Validators, v.Addr ≠ a) → ExistProxy vl a = false) := by
  have hiff : ExistProxy vl a = true ↔
      ∃ v ∈ vl.Validators, v.Addr = a ∧ v.Proxy ≠ Address.empty := by
    unfold ExistProxy
    rw [List.any_eq_true]
    constructor
    · rintro ⟨v, hv, h⟩
      rw [Bool.and_eq_true, decide_eq_true_eq, decide_eq_true_eq] at h
      exact ⟨v, hv, h⟩
    · rintro ⟨v, hv, h⟩
      refine ⟨v, hv, ?_⟩
      rw [Bool.and_eq_true, decide_eq_true_eq, decide_eq_true_eq]
      exact h
  refine ⟨hiff, fun hno => ?_⟩
  cases hx : ExistProxy vl a with
  | false => rfl
  | true =>
    obtain ⟨v, hv, hva, -⟩ := hiff.1 hx
    exact absurd hva (hno v hv)

/-- C13 (the code at the failing input). In the scenario list no record has a
proxy and no record has the all-zero address, yet `Exist` of the all-zero
address is true: the empty `Proxy` field of a record is compared with the
query like a proxy that was set. -/
theorem exist_zero_address :
    (∀ v ∈ stakedABC.Validators, v.Proxy = Address.empty) ∧
    (∀ v ∈ stakedABC.Validators, v.Addr ≠ Address.empty) ∧
    Exist stakedABC Address.empty = true := by
  decide

/-! ## Proxy update -/

theorem AddValidator_nonneg (vl : ValidatorList) (addr : Address) (balance : Int)
    (proxy : Address) (h : BalancesNonneg vl) (hb : 0 ≤ balance) :
    BalancesNonneg (AddValidator vl addr balance proxy).2 := by
  unfold AddValidator
  cases hl : addLoop addr balance proxy [] vl.Validators with
  | none =>
    intro r hr
    have hr' := (sortSort_perm _).mem_iff.1 hr
    rcases List.mem_append.1 hr' with h1 | h1
    · exact h r h1
    · rw [List.mem_singleton] at h1
      rw [h1]
      exact hb
  | some res =>
    obtain ⟨l1, v, l2, hsplit, -, -, hres⟩ := addLoop_some addr balance proxy [] _ res hl
    have hall : ∀ u ∈ l1 ++ v :: l2, 0 ≤ u.Balance := by
      rw [← hsplit]
      exact h
    intro r hr
    have hr' : r ∈ res := hr
    rw [hres] at hr'
    have hr'' := (sortSort_perm _).mem_iff.1 hr'
    rw [List.nil_append] at hr''
    rcases List.mem_append.1 hr'' with h1 | h1
    · exact hall r (List.mem_append_left _ h1)
    · rcases List.mem_cons.1 h1 with h2 | h2
      · rw [h2]
        exact add_nonneg (hall v (List.mem_append_right _ (List.mem_cons_self _ _))) hb
      · exact hall r (List.mem_append_right _ (List.mem_cons_of_mem _ h2))

theorem RemoveValidator_nonneg (vl : ValidatorList) (addr : Address) (balance : Int)
    (h : BalancesNonneg vl) : BalancesNonneg (RemoveValidator vl addr balance).2 := by
  unfold RemoveValidator
  cases hl : removeLoop addr balance [] vl.Validators with
  | none => exact h
  | some res =>
    obtain ⟨l1, v, l2, hsplit, -, -, hres⟩ := removeLoop_some addr balance [] _ res hl
    have hall : ∀ u ∈ l1 ++ v :: l2, 0 ≤ u.Balance := by
      rw [← hsplit]
      exact h
    intro r hr
    have hr' : r ∈ res := hr
    rw [hres] at hr'
    by_cases hgt : v.Balance > balance
    · rw [if_pos hgt] at hr'
      have hr'' := (sortSort_perm _).mem_iff.1 hr'
      rw [List.nil_append] at hr''
      rcases List.mem_append.1 hr'' with h1 | h1
      · exact hall r (List.mem_append_left _ h1)
      · rcases List.mem_cons.1 h1 with h2 | h2
        · rw [h2]
          exact le_of_lt (sub_pos.2 hgt)
        · exact hall r (List.mem_append_right _ (List.mem_cons_of_mem _ h2))
    · rw [if_neg hgt, List.nil_append] at hr'
      rcases List.mem_append.1 hr' with h1 | h1
      · exact hall r (List.mem_append_left _ h1)
      · exact hall r (List.mem_append_right _ (List.mem_cons_of_mem _ h1))

theorem runOps_nonneg (ops : List Op) (vl : ValidatorList) (h : BalancesNonneg vl)
    (hops : ∀ op ∈ ops, Op.addNonneg op = true) : BalancesNonneg (runOps vl ops) := by
  induction ops generalizing vl with
  | nil => exact h
  | cons op ops ih =>
    show BalancesNonneg (runOps (applyOp vl op) ops)
    apply ih _ _ (fun o ho => hops o (List.mem_cons_of_mem _ ho))
    have hop := hops op (List.mem_cons_self _ _)
    cases op with
    | add addr balance proxy =>
      exact AddValidator_nonneg vl addr balance proxy h (by simpa [Op.addNonneg] using hop)
    | remove addr balance => exact RemoveValidator_nonneg vl addr balance h

/-- Counterexample to C15: `AddValidator(A, -5, no proxy)` on the empty list
returns true and leaves a record with balance `-5`. -/
theorem nonneg_stake_counterexample :
    AddValidator ValidatorList.nil addrA (-5) Address.empty
      = (true, ⟨[⟨addrA, -5, Address.empty⟩]⟩) ∧
    ¬ BalancesNonneg (runOps ValidatorList.nil [.add addrA (-5) Address.empty]) := by
  refine ⟨by decide, fun h => ?_⟩
  have h5 := h ⟨addrA, -5, Address.empty⟩ (by decide)
  revert h5
  decide

/-- C15 (amended). Sign of the balances: for every sequence of calls on the
empty list in which no `AddValidator` amount is negative, after each call
every record has a balance `>= 0`.  No call is refused for its amount:
`AddValidator` returns true whatever the amount, and `RemoveValidator` returns
true whenever the address has a record, whatever the amount. -/
theorem nonneg_stake (ops : List Op) (n : Nat)
    (hops : ∀ op ∈ ops, Op.addNonneg op = true) :
    BalancesNonneg (runOps ValidatorList.nil (ops.take n)) ∧
    (∀ (vl : ValidatorList) (addr : Address) (balance : Int) (proxy : Address),
      (AddValidator vl addr balance proxy).1 = true) ∧
    (∀ (vl : ValidatorList) (addr : Address) (balance : Int) (v : Validator),
      v ∈ vl.Validators → v.Addr = addr → (RemoveValidator vl addr balance).1 = true) := by
  refine ⟨?_, ?_, ?_⟩
  · apply runOps_nonneg _ _ (fun r hr => by cases hr)
    exact fun op hop => hops op (List.mem_of_mem_take hop)
  · intro vl addr balance proxy
    unfold AddValidator
    cases addLoop addr balance proxy [] vl.Validators <;> rfl
  · intro vl addr balance v hv hva
    unfold RemoveValidator
    cases hl : removeLoop addr balance [] vl.Validators with
    | none => exact absurd hva ((removeLoop_none addr balance [] vl.Validators).1 hl v hv)
    | some res => rfl

/-- Witness for C15 (amended): a join, a top-up, a partial withdrawal and an
over-withdrawal. -/
theorem nonneg_stake_witness :
    (∀ op ∈ [Op.add addrA 100 Address.empty, .add addrA 0 addrC, .remove addrA 30,
        .remove addrA 500], Op.addNonneg op = true) ∧
    BalancesNonneg (runOps ValidatorList.nil
      ([Op.add addrA 100 Address.empty, .add addrA 0 addrC, .remove addrA 30,
        .remove addrA 500].take 3)) :=
  ⟨by decide,
    (nonneg_stake [Op.add addrA 100 Address.empty, .add addrA 0 addrC, .remove addrA 30,
        .remove addrA 500] 3 (by decide)).1⟩

/-! ## Selection under ties -/

/-- The selector of the earlier sections is the run that takes the map
entries in the order they were entered. -/
theorem ValidatorByDistanceAndWeight_run (vl : ValidatorList) (heap : Nat → Int)
    (addr : List Nat) (k : Int) (randomHash : Hash) :
    ValidatorByDistanceAndWeight vl heap addr k randomHash
      = ValidatorByDistanceAndWeightRun id vl heap addr k randomHash := rfl

/-- Two arrangements of entries with pairwise different weights are ranked
alike. -/
theorem rankByWordCount_unique (l1 l2 : List Pair) (hp : l1.Perm l2)
    (hn : (l1.map (fun p => p.Value)).Nodup) :
    rankByWordCount l1 = rankByWordCount l2 := by
  haveI : IsAntisymm Pair (fun a b => b.Value < a.Value) :=
    ⟨fun _ _ h1 h2 => absurd h1 (lt_asymm h2)⟩
  have hstrict : ∀ l : List Pair, l.Perm l1 →
      (rankByWordCount l).Pairwise (fun a b => b.Value < a.Value) := by
    intro l hl
    have hnd : ((rankByWordCount l).map (fun p => p.Value)).Nodup :=
      ((((rankByWordCount_perm l).trans hl).map _).nodup_iff).2 hn
    rw [List.Nodup, List.pairwise_map] at hnd
    exact ((rankByWordCount_sorted l).and hnd).imp
      (fun h => lt_of_le_of_ne h.1 (fun he => h.2 he.symm))
  apply List.eq_of_perm_of_sorted _ (hstrict l1 (List.Perm.refl _)) (hstrict l2 hp.symm)
  exact ((rankByWordCount_perm l1).trans hp).trans (rankByWordCount_perm l2).symm

/-- Counterexample to C16: in the scenario `A` and `B` both weigh 2; the run
that takes the map entries in the order they were entered returns `C, A`, the
run that takes them in the opposite order returns `C, B`. -/
theorem deterministic_selection_counterexample :
    IsIteration id ∧ IsIteration List.reverse ∧
    ValidatorByDistanceAndWeightRun id stakedABC heapABC [0, 1, 2] 2 seed100
      = some [addrC, addrA] ∧
    ValidatorByDistanceAndWeightRun List.reverse stakedABC heapABC [0, 1, 2] 2 seed100
      = some [addrC, addrB] ∧
    ValidatorByDistanceAndWeightRun id stakedABC heapABC [0, 1, 2] 2 seed100
      ≠ ValidatorByDistanceAndWeightRun List.reverse stakedABC heapABC [0, 1, 2] 2 seed100 :=
  ⟨fun m => List.Perm.refl m, fun m => List.reverse_perm m, by decide, by decide, by decide⟩

/-- C16 (amended). Deterministic selection without ties: for a fixed list,
candidate list, `k` and seed in which no two candidates have equal weight,
every run of `ValidatorByDistanceAndWeight` returns the same ordered list of
addresses (or fails alike), whatever the iteration order of the weight map. -/
theorem deterministic_selection (iter1 iter2 : List Pair → List Pair)
    (h1 : IsIteration iter1) (h2 : IsIteration iter2)
    (vl : ValidatorList) (heap : Nat → Int) (addr : List Nat) (k : Int) (randomHash : Hash)
    (hw : (addr.map (fun p => weightValue vl randomHash (heap p))).Nodup) :
    ValidatorByDistanceAndWeightRun iter1 vl heap addr k randomHash
      = ValidatorByDistanceAndWeightRun iter2 vl heap addr k randomHash := by
  unfold ValidatorByDistanceAndWeightRun
  cases hwl : weightLoop vl heap (seedPoint randomHash) addr [] with
  | none => rfl
  | some m =>
    have hm : (m.map (fun p => p.Value)).Nodup := by
      by_cases ht : TotalStakeBalance vl = 0
      · have hnil : addr = [] := by
          by_contra hne
          rw [(weightLoop_none vl heap _ addr []).2 ⟨hne, ht⟩] at hwl
          cases hwl
        rw [hnil] at hwl
        have : m = [] := by
          unfold weightLoop at hwl
          exact (Option.some.inj hwl).symm
        rw [this]
        exact List.nodup_nil
      · rw [weightLoop_fresh vl heap randomHash ht addr [] (List.Nodup.of_map _ hw)
          (by simp)] at hwl
        rw [← Option.some.inj hwl, List.nil_append]
        unfold entriesOf
        rw [List.map_map]
        exact hw
    show some (collectLoop heap k 0 (rankByWordCount (iter1 m)))
      = some (collectLoop heap k 0 (rankByWordCount (iter2 m)))
    rw [rankByWordCount_unique (iter1 m) (iter2 m) ((h1 m).trans (h2 m).symm)
      ((((h1 m).map _).nodup_iff).2 hm)]

/-- Witness for C16 (amended): candidates `A` and `C`, of weights 2 and 7,
with the map taken in entry order and in the opposite order. -/
theorem deterministic_selection_witness :
    IsIteration id ∧ IsIteration List.reverse ∧
    ([0, 2].map (fun p => weightValue stakedABC seed100 (heapABC p))).Nodup ∧
    ValidatorByDistanceAndWeightRun id stakedABC heapABC [0, 2] 2 seed100
      = ValidatorByDistanceAndWeightRun List.reverse stakedABC heapABC [0, 2] 2 seed100 :=
  ⟨fun m => List.Perm.refl m, fun m => List.reverse_perm m, by decide,
    deterministic_selection id List.reverse (fun m => List.Perm.refl m)
      (fun m => List.reverse_perm m) stakedABC heapABC [0, 2] 2 seed100 (by decide)⟩

/-! ## Construction from an initial list -/

/-- C17 (the code at the failing input). `NewValidatorList` on the one-record
list of `A` panics, as it does on every non-empty list; on the empty list it
returns the nil pointer, through which `Len()` panics. -/
theorem NewValidatorList_panics :
    NewValidatorList [⟨addrA, 100, Address.empty⟩] = none ∧
    (∀ (v : Validator) (vs : List Validator), NewValidatorList (v :: vs) = none) ∧
    NewValidatorList [] = some none ∧ lenThrough none = none :=
  ⟨rfl, fun _ _ => rfl, rfl, rfl⟩

/-! ## Frame of the mutations -/

theorem filter_others_split (addr : Address) (l1 l2 : List Validator) (v : Validator)
    (hv : v.Addr = addr) :
    (l1 ++ v :: l2).filter (fun u => decide (u.Addr ≠ addr))
      = l1.filter (fun u => decide (u.Addr ≠ addr))
        ++ l2.filter (fun u => decide (u.Addr ≠ addr)) := by
  rw [List.filter_append, List.filter_cons]
  simp [hv]

/-- Frame of the mutations on values: after `AddValidator` and after
`RemoveValidator` the records whose `Addr` differs from `addr` are those of
the list before the call, with the same `Addr`, `Balance` and `Proxy`. -/
theorem mutation_frame_values (vl : ValidatorList) (addr : Address) (amount : Int)
    (proxy : Address) :
    (othersOf (AddValidator vl addr amount proxy).2 addr).Perm (othersOf vl addr) ∧
    (othersOf (RemoveValidator vl addr amount).2 addr).Perm (othersOf vl addr) := by
  unfold othersOf
  constructor
  · unfold AddValidator
    cases hl : addLoop addr amount proxy [] vl.Validators with
    | none =>
      refine ((sortSort_perm _).filter _).trans ?_
      rw [List.filter_append]
      simp [NewValidator]
    | some res =>
      obtain ⟨l1, v, l2, hsplit, hv, -, hres⟩ := addLoop_some addr amount proxy [] _ res hl
      show (res.filter _).Perm _
      rw [hres, hsplit, List.nil_append]
      refine ((sortSort_perm _).filter _).trans ?_
      rw [filter_others_split addr l1 l2 v hv, filter_others_split addr l1 l2 _
        (show (Validator.mk v.Addr (v.Balance + amount)
          (if proxy ≠ Address.empty then proxy else v.Proxy)).Addr = addr from hv)]
  · unfold RemoveValidator
    cases hl : removeLoop addr amount [] vl.Validators with
    | none => exact List.Perm.refl _
    | some res =>
      obtain ⟨l1, v, l2, hsplit, hv, -, hres⟩ := removeLoop_some addr amount [] _ res hl
      show (res.filter _).Perm _
      rw [hres, hsplit, List.nil_append, filter_others_split addr l1 l2 v hv]
      split
      · refine ((sortSort_perm _).filter _).trans ?_
        rw [filter_others_split addr l1 l2 _
          (show (Validator.mk v.Addr (v.Balance - amount) v.Proxy).Addr = addr from hv)]
      · rw [List.filter_append]

/-! ## The withdrawal loop on a split list -/

theorem removeLoop_append (addr : Address) (balance : Int) (pre l1 l2 : List Validator)
    (v : Validator) (hv : v.Addr = addr) (h1 : ∀ u ∈ l1, u.Addr ≠ addr) :
    removeLoop addr balance pre (l1 ++ v :: l2)
      = some (if v.Balance > balance then
            sortSort (pre ++ l1 ++ { v with Balance := v.Balance - balance } :: l2)
          else pre ++ l1 ++ l2) := by
  induction l1 generalizing pre with
  | nil =>
    show removeLoop addr balance pre (v :: l2) = _
    unfold removeLoop
    rw [if_pos hv]
    by_cases hgt : v.Balance > balance
    · rw [if_pos hgt, if_pos hgt, List.append_nil]
    · rw [if_neg hgt, if_neg hgt, List.append_nil]
      split <;> rfl
  | cons u us ih =>
    show removeLoop addr balance pre (u :: (us ++ v :: l2)) = _
    unfold removeLoop
    rw [if_neg (h1 u (List.mem_cons_self _ _)),
      ih (pre ++ [u]) (fun w hw => h1 w (List.mem_cons_of_mem _ hw))]
    simp

/-! ## Bounds on distance and weight -/

/-- The weight is the distance times the stake, divided by the total. -/
theorem candidateWeight_distance (vl : ValidatorList) (x v : Int) :
    candidateWeight vl x v
      = bigDiv (distanceOf x v * StakeBalance vl (BigToAddress v)) (TotalStakeBalance vl) := by
  unfold candidateWeight distanceOf
  by_cases h : ((v - x).natAbs : Int) < maxValue - ((v - x).natAbs : Int)
  · simp only [h, if_true]
  · simp only [h, if_false]

theorem stakeLoop_cases (a : Address) (l : List Validator) :
    ((∀ st ∈ l, st.Addr ≠ a ∧ st.Proxy ≠ a) ∧ stakeLoop a l = 0) ∨
    ∃ st ∈ l, stakeLoop a l = st.Balance := by
  induction l with
  | nil => exact Or.inl ⟨fun _ h => (by cases h), rfl⟩
  | cons st rest ih =>
    unfold stakeLoop
    by_cases h : st.Addr ≠ a ∧ st.Proxy ≠ a
    · rw [if_pos h]
      rcases ih with ⟨hall, h0⟩ | ⟨r, hr, hb⟩
      · left
        refine ⟨fun u hu => ?_, h0⟩
        rcases List.mem_cons.1 hu with rfl | hu
        · exact h
        · exact hall u hu
      · exact Or.inr ⟨r, List.mem_cons_of_mem _ hr, hb⟩
    · rw [if_neg h]
      exact Or.inr ⟨st, List.mem_cons_self _ _, rfl⟩

theorem stakeLoop_none (a : Address) (l : List Validator)
    (h : ∀ st ∈ l, st.Addr ≠ a ∧ st.Proxy ≠ a) : stakeLoop a l = 0 := by
  induction l with
  | nil => rfl
  | cons st rest ih =>
    unfold stakeLoop
    rw [if_pos (h st (List.mem_cons_self _ _))]
    exact ih (fun u hu => h u (List.mem_cons_of_mem _ hu))

/-- With balances that are not negative, a stake is between 0 and the
total. -/
theorem stake_le_total (vl : ValidatorList) (a : Address)
    (hb : ∀ r ∈ vl.Validators, 0 ≤ r.Balance) :
    0 ≤ StakeBalance vl a ∧ StakeBalance vl a ≤ TotalStakeBalance vl := by
  have hsum : ∀ x ∈ vl.Validators.map (fun v => v.Balance), (0 : Int) ≤ x := by
    intro x hx
    obtain ⟨r, hr, rfl⟩ := List.mem_map.1 hx
    exact hb r hr
  rw [total_eq_sum]
  unfold StakeBalance
  rcases stakeLoop_cases a vl.Validators with ⟨-, h0⟩ | ⟨r, hr, hbal⟩
  · rw [h0]
    exact ⟨le_refl 0, List.sum_nonneg hsum⟩
  · rw [hbal]
    exact ⟨hb r hr, List.single_le_sum hsum _ (List.mem_map_of_mem _ hr)⟩

theorem seedPoint_range (randomHash : Hash) :
    0 ≤ seedPoint randomHash ∧ seedPoint randomHash ≤ maxValue := by
  have hlt := (BytesToAddress (randomHash.bytes.drop 12)).lt
  have hpos : 0 < addressSpace := by decide
  unfold seedPoint maxValue
  constructor
  · exact Int.natCast_nonneg _
  · show ((BytesToAddress (List.drop 12 randomHash.bytes)).big : Int)
      ≤ ((addressSpace - 1 : Nat) : Int)
    exact Int.ofNat_le.2 (by omega)

/-- C20. Distance and weight bounds: with `MAX = 2 ^ 160 - 1`, for a candidate
`v` in `[0, MAX]` and any seed the distance used by
`ValidatorByDistanceAndWeight` is `min(|v - x|, MAX - |v - x|)` and lies in
`[0, 2 ^ 159 - 1]`; when all balances are `>= 0` and the total stake is
positive the weight of `v` lies between 0 and that distance, and is 0 when
the address of `v` is the `Addr` or `Proxy` of no record. -/
theorem distance_weight_bounds (vl : ValidatorList) (randomHash : Hash) (v : Int)
    (h0 : 0 ≤ v) (h1 : v ≤ maxValue) :
    distanceOf (seedPoint randomHash) v
      = min |v - seedPoint randomHash| (maxValue - |v - seedPoint randomHash|) ∧
    0 ≤ distanceOf (seedPoint randomHash) v ∧
    distanceOf (seedPoint randomHash) v ≤ 2 ^ 159 - 1 ∧
    ((∀ r ∈ vl.Validators, 0 ≤ r.Balance) → 0 < TotalStakeBalance vl →
      ∃ w, weightOf vl randomHash v = some w ∧ 0 ≤ w ∧
        w ≤ distanceOf (seedPoint randomHash) v ∧
        ((∀ r ∈ vl.Validators, r.Addr ≠ BigToAddress v ∧ r.Proxy ≠ BigToAddress v) →
          w = 0)) := by
  obtain ⟨hx0, hx1⟩ := seedPoint_range randomHash
  have hmax : maxValue = 2 * 2 ^ 159 - 1 := by
    rw [maxValue_eq]
    norm_num
  have hdist : distanceOf (seedPoint randomHash) v
      = min |v - seedPoint randomHash| (maxValue - |v - seedPoint randomHash|) := by
    unfold distanceOf
    simp only [Int.natCast_natAbs]
    by_cases hlt : |v - seedPoint randomHash| < maxValue - |v - seedPoint randomHash|
    · rw [if_pos hlt, min_eq_left (le_of_lt hlt)]
    · rw [if_neg hlt, min_eq_right (not_lt.1 hlt)]
  have habs0 : 0 ≤ |v - seedPoint randomHash| := abs_nonneg _
  have habs1 : |v - seedPoint randomHash| ≤ maxValue := by
    rw [abs_le]
    constructor <;> omega
  have hd0 : 0 ≤ distanceOf (seedPoint randomHash) v := by
    rw [hdist]
    exact le_min habs0 (by omega)
  have hd1 : distanceOf (seedPoint randomHash) v ≤ 2 ^ 159 - 1 := by
    rw [hdist]
    rcases le_total |v - seedPoint randomHash| (maxValue - |v - seedPoint randomHash|)
      with hle | hle
    · rw [min_eq_left hle]
      omega
    · rw [min_eq_right hle]
      omega
  refine ⟨hdist, hd0, hd1, ?_⟩
  intro hb ht
  obtain ⟨hs0, hs1⟩ := stake_le_total vl (BigToAddress v) hb
  refine ⟨distanceOf (seedPoint randomHash) v * StakeBalance vl (BigToAddress v)
    / TotalStakeBalance vl, ?_, ?_, ?_, ?_⟩
  · unfold weightOf
    rw [candidateWeight_distance]
    unfold bigDiv
    rw [if_neg (ne_of_gt ht)]
  · exact Int.ediv_nonneg (mul_nonneg hd0 hs0) (le_of_lt ht)
  · calc distanceOf (seedPoint randomHash) v * StakeBalance vl (BigToAddress v)
          / TotalStakeBalance vl
        ≤ distanceOf (seedPoint randomHash) v * TotalStakeBalance vl
          / TotalStakeBalance vl :=
          Int.ediv_le_ediv ht (mul_le_mul_of_nonneg_left hs1 hd0)
      _ = distanceOf (seedPoint randomHash) v :=
          Int.mul_ediv_cancel _ (ne_of_gt ht)
  · intro hno
    have hz : StakeBalance vl (BigToAddress v) = 0 :=
      stakeLoop_none (BigToAddress v) vl.Validators hno
    rw [hz, mul_zero, Int.zero_ediv]

/-- Witness for C20: candidate `C` of the scenario, at distance 50 with
weight 7. -/
theorem distance_weight_bounds_witness :
    (0 : Int) ≤ 150 ∧ (150 : Int) ≤ maxValue ∧
    distanceOf (seedPoint seed100) 150 = 50 ∧ weightOf stakedABC seed100 150 = some 7 ∧
    0 ≤ distanceOf (seedPoint seed100) 150 ∧
    distanceOf (seedPoint seed100) 150 ≤ 2 ^ 159 - 1 :=
  ⟨by decide, by decide, by decide, by decide,
    (distance_weight_bounds stakedABC seed100 150 (by decide) (by decide)).2.1,
    (distance_weight_bounds stakedABC seed100 150 (by decide) (by decide)).2.2.1⟩

/-! ## Balances as shared integers: the sort and the loops -/

theorem sortInsertPtr_map (store : Nat → Int) (x : ValidatorPtr) (l : List ValidatorPtr) :
    (sortInsertPtr x l).map (valueOf store)
      = sortInsert (valueOf store x) (l.map (valueOf store)) := by
  induction l with
  | nil => rfl
  | cons y ys ih =>
    have hless : Less (valueOf store y) (valueOf store x) = LessPtr y x := rfl
    unfold sortInsertPtr
    rw [List.map_cons]
    unfold sortInsert
    rw [hless]
    by_cases h : LessPtr y x = true
    · rw [if_pos h, if_pos h, List.map_cons, ih]
    · rw [if_neg h, if_neg h]
      rfl

/-- Sorting commutes with reading the records as values. -/
theorem sortSortPtr_map (store : Nat → Int) (l : List ValidatorPtr) :
    (sortSortPtr l).map (valueOf store) = sortSort (l.map (valueOf store)) := by
  induction l with
  | nil => rfl
  | cons x xs ih =>
    unfold sortSortPtr
    rw [sortInsertPtr_map, ih]
    rfl

theorem valueOf_cast_injective :
    Function.Injective (valueOf (fun q => (q : Int))) := by
  intro a b h
  cases a
  cases b
  simp only [valueOf, Validator.mk.injEq, Nat.cast_inj] at h
  obtain ⟨h1, h2, h3⟩ := h
  subst h1 h2 h3
  rfl

theorem sortSortPtr_of_sorted (l : List ValidatorPtr)
    (h : l.Pairwise (fun a b => a.Addr.big ≤ b.Addr.big)) : sortSortPtr l = l := by
  apply (List.map_injective_iff.2 valueOf_cast_injective)
  rw [sortSortPtr_map]
  apply sortSort_of_sorted
  rw [List.pairwise_map]
  exact h

theorem sortSortPtr_perm (l : List ValidatorPtr) : (sortSortPtr l).Perm l := by
  have hins : ∀ (x : ValidatorPtr) (m : List ValidatorPtr),
      (sortInsertPtr x m).Perm (x :: m) := by
    intro x m
    induction m with
    | nil => exact List.Perm.refl _
    | cons y ys ih =>
      unfold sortInsertPtr
      split
      · exact (List.Perm.cons y ih).trans (List.Perm.swap x y ys)
      · exact List.Perm.refl _
  induction l with
  | nil => exact List.Perm.refl _
  | cons x xs ih =>
    unfold sortSortPtr
    exact (hins x _).trans (List.Perm.cons x ih)

/-- A list either has no record of `addr` or splits at the first one. -/
theorem first_split (addr : Address) (l : List ValidatorPtr) :
    (∀ u ∈ l, u.Addr ≠ addr) ∨
    ∃ l1 v l2, l = l1 ++ v :: l2 ∧ v.Addr = addr ∧ ∀ u ∈ l1, u.Addr ≠ addr := by
  induction l with
  | nil => exact Or.inl (fun _ h => (by cases h))
  | cons x xs ih =>
    by_cases hx : x.Addr = addr
    · exact Or.inr ⟨[], x, xs, rfl, hx, fun _ h => (by cases h)⟩
    · rcases ih with hno | ⟨l1, v, l2, hsplit, hv, hl1⟩
      · left
        intro u hu
        rcases List.mem_cons.1 hu with rfl | hu
        · exact hx
        · exact hno u hu
      · right
        refine ⟨x :: l1, v, l2, by rw [hsplit]; rfl, hv, ?_⟩
        intro u hu
        rcases List.mem_cons.1 hu with rfl | hu
        · exact hx
        · exact hl1 u hu

theorem addLoopPtr_none (store : Nat → Int) (addr : Address) (balance : Nat)
    (proxy : Address) (pre l : List ValidatorPtr) (h : ∀ u ∈ l, u.Addr ≠ addr) :
    addLoopPtr store addr balance proxy pre l = none := by
  induction l generalizing pre with
  | nil => rfl
  | cons u us ih =>
    unfold addLoopPtr
    rw [if_neg (h u (List.mem_cons_self _ _))]
    exact ih _ (fun w hw => h w (List.mem_cons_of_mem _ hw))

theorem addLoopPtr_append (store : Nat → Int) (addr : Address) (balance : Nat)
    (proxy : Address) (pre l1 l2 : List ValidatorPtr) (v : ValidatorPtr)
    (hv : v.Addr = addr) (h1 : ∀ u ∈ l1, u.Addr ≠ addr) :
    addLoopPtr store addr balance proxy pre (l1 ++ v :: l2)
      = some (storeSet store v.Balance (store v.Balance + store balance),
          sortSortPtr (pre ++ l1 ++
            { v with Proxy := if proxy ≠ Address.empty then proxy else v.Proxy } :: l2)) := by
  induction l1 generalizing pre with
  | nil =>
    show addLoopPtr store addr balance proxy pre (v :: l2) = _
    unfold addLoopPtr
    rw [if_pos hv, List.append_nil]
  | cons u us ih =>
    show addLoopPtr store addr balance proxy pre (u :: (us ++ v :: l2)) = _
    unfold addLoopPtr
    rw [if_neg (h1 u (List.mem_cons_self _ _)),
      ih (pre ++ [u]) (fun w hw => h1 w (List.mem_cons_of_mem _ hw))]
    simp

theorem removeLoopPtr_none (store : Nat → Int) (addr : Address) (balance : Nat)
    (pre l : List ValidatorPtr) (h : ∀ u ∈ l, u.Addr ≠ addr) :
    removeLoopPtr store addr balance pre l = none := by
  induction l generalizing pre with
  | nil => rfl
  | cons u us ih =>
    unfold removeLoopPtr
    rw [if_neg (h u (List.mem_cons_self _ _))]
    exact ih _ (fun w hw => h w (List.mem_cons_of_mem _ hw))

theorem removeLoopPtr_append (store : Nat → Int) (addr : Address) (balance : Nat)
    (pre l1 l2 : List ValidatorPtr) (v : ValidatorPtr)
    (hv : v.Addr = addr) (h1 : ∀ u ∈ l1, u.Addr ≠ addr) :
    removeLoopPtr store addr balance pre (l1 ++ v :: l2)
      = some (if store v.Balance > store balance then
            (storeSet store v.Balance (store v.Balance - store balance),
              sortSortPtr (pre ++ l1 ++ v :: l2))
          else if store v.Balance = store balance then
            (storeSet store v.Balance (store v.Balance - store balance), pre ++ l1 ++ l2)
          else (store, pre ++ l1 ++ l2)) := by
  induction l1 generalizing pre with
  | nil =>
    show removeLoopPtr store addr balance pre (v :: l2) = _
    unfold removeLoopPtr
    rw [if_pos hv, List.append_nil]
    by_cases hgt : store v.Balance > store balance
    · rw [if_pos hgt, if_pos hgt]
    · rw [if_neg hgt, if_neg hgt]
      by_cases heq : store v.Balance = store balance
      · rw [if_pos heq, if_pos heq]
      · rw [if_neg heq, if_neg heq]
  | cons u us ih =>
    show removeLoopPtr store addr balance pre (u :: (us ++ v :: l2)) = _
    unfold removeLoopPtr
    rw [if_neg (h1 u (List.mem_cons_self _ _)),
      ih (pre ++ [u]) (fun w hw => h1 w (List.mem_cons_of_mem _ hw))]
    simp

theorem addLoop_append (addr : Address) (balance : Int) (proxy : Address)
    (pre l1 l2 : List Validator) (v : Validator)
    (hv : v.Addr = addr) (h1 : ∀ u ∈ l1, u.Addr ≠ addr) :
    addLoop addr balance proxy pre (l1 ++ v :: l2)
      = some (sortSort (pre ++ l1 ++
          { v with
            Balance := v.Balance + balance
            Proxy := if proxy ≠ Address.empty then proxy else v.Proxy } :: l2)) := by
  induction l1 generalizing pre with
  | nil =>
    show addLoop addr balance proxy pre (v :: l2) = _
    unfold addLoop
    rw [if_pos hv, List.append_nil]
  | cons u us ih =>
    show addLoop addr balance proxy pre (u :: (us ++ v :: l2)) = _
    unfold addLoop
    rw [if_neg (h1 u (List.mem_cons_self _ _)),
      ih (pre ++ [u]) (fun w hw => h1 w (List.mem_cons_of_mem _ hw))]
    simp

/-! ## Balances as shared integers: agreement with the values -/

theorem valueOf_storeSet (store : Nat → Int) (p : Nat) (x : Int) (l : List ValidatorPtr)
    (h : ∀ u ∈ l, u.Balance ≠ p) :
    l.map (valueOf (storeSet store p x)) = l.map (valueOf store) := by
  apply List.map_congr_left
  intro u hu
  unfold valueOf storeSet
  rw [if_neg (h u hu)]

theorem tail_ne_ptr (addr : Address) (l1 l2 : List ValidatorPtr) (v : ValidatorPtr)
    (hd : ((l1 ++ v :: l2).map (fun r => r.Addr)).Nodup) (hv : v.Addr = addr) :
    ∀ u ∈ l2, u.Addr ≠ addr := by
  intro u hu hua
  rw [List.map_append, List.map_cons] at hd
  have h2 := (List.nodup_append.1 hd).2.1
  rw [List.nodup_cons] at h2
  apply h2.1
  rw [hv, ← hua]
  exact List.mem_map_of_mem _ hu

/-- When the record of `addr` shares its balance with no other record,
`AddValidator` on pointers and `AddValidator` on values leave the same list
of values. -/
theorem AddValidatorPtr_values (sl : SharedList) (addr : Address) (balance : Nat)
    (proxy : Address) (hd : (sl.Validators.map (fun r => r.Addr)).Nodup)
    (hu : Unshared sl addr) :
    (AddValidatorPtr sl addr balance proxy).1 = true ∧
    valuesOf (AddValidatorPtr sl addr balance proxy).2
      = (AddValidator (valuesOf sl) addr (sl.store balance) proxy).2 := by
  rcases first_split addr sl.Validators with hno | ⟨l1, v, l2, hsplit, hv, hl1⟩
  · have hnone : addLoop addr (sl.store balance) proxy [] (valuesOf sl).Validators = none := by
      apply (addLoop_none _ _ _ _ _).2
      intro w hw
      obtain ⟨u, hu', rfl⟩ := List.mem_map.1 hw
      exact hno u hu'
    unfold AddValidatorPtr AddValidator
    rw [addLoopPtr_none _ _ _ _ _ _ hno, hnone]
    refine ⟨rfl, ?_⟩
    show (⟨(sortSortPtr _).map (valueOf sl.store)⟩ : ValidatorList) = _
    rw [sortSortPtr_map, List.map_append]
    rfl
  · have hl2 := tail_ne_ptr addr l1 l2 v (by rw [← hsplit]; exact hd) hv
    have hvmem : v ∈ sl.Validators := by rw [hsplit]; simp
    have hp1 : ∀ u ∈ l1, u.Balance ≠ v.Balance := fun u hu' =>
      hu v hvmem u (by rw [hsplit]; exact List.mem_append_left _ hu') hv (hl1 u hu')
    have hp2 : ∀ u ∈ l2, u.Balance ≠ v.Balance := fun u hu' =>
      hu v hvmem u (by rw [hsplit]; exact List.mem_append_right _ (List.mem_cons_of_mem _ hu'))
        hv (hl2 u hu')
    have hval : (valuesOf sl).Validators
        = l1.map (valueOf sl.store) ++ valueOf sl.store v :: l2.map (valueOf sl.store) := by
      unfold valuesOf
      rw [hsplit, List.map_append, List.map_cons]
    have hsome := addLoop_append addr (sl.store balance) proxy []
      (l1.map (valueOf sl.store)) (l2.map (valueOf sl.store)) (valueOf sl.store v) hv
      (by
        intro w hw
        obtain ⟨u, hu', rfl⟩ := List.mem_map.1 hw
        exact hl1 u hu')
    unfold AddValidatorPtr AddValidator
    rw [hval, hsome, hsplit, addLoopPtr_append _ _ _ _ [] l1 l2 v hv hl1]
    refine ⟨rfl, ?_⟩
    show (⟨(sortSortPtr _).map (valueOf _)⟩ : ValidatorList) = ⟨sortSort _⟩
    rw [sortSortPtr_map, List.nil_append, List.nil_append, List.map_append, List.map_cons,
      valueOf_storeSet _ _ _ l1 hp1, valueOf_storeSet _ _ _ l2 hp2]
    simp [valueOf, storeSet]

/-- When the record of `addr` shares its balance with no other record,
`RemoveValidator` on pointers and `RemoveValidator` on values return the same
flag and leave the same list of values. -/
theorem RemoveValidatorPtr_values (sl : SharedList) (addr : Address) (balance : Nat)
    (hd : (sl.Validators.map (fun r => r.Addr)).Nodup) (hu : Unshared sl addr) :
    (RemoveValidatorPtr sl addr balance).1
      = (RemoveValidator (valuesOf sl) addr (sl.store balance)).1 ∧
    valuesOf (RemoveValidatorPtr sl addr balance).2
      = (RemoveValidator (valuesOf sl) addr (sl.store balance)).2 := by
  rcases first_split addr sl.Validators with hno | ⟨l1, v, l2, hsplit, hv, hl1⟩
  · have hnone : removeLoop addr (sl.store balance) [] (valuesOf sl).Validators = none := by
      apply (removeLoop_none _ _ _ _).2
      intro w hw
      obtain ⟨u, hu', rfl⟩ := List.mem_map.1 hw
      exact hno u hu'
    unfold RemoveValidatorPtr RemoveValidator
    rw [removeLoopPtr_none _ _ _ _ _ hno, hnone]
    exact ⟨rfl, rfl⟩
  · have hl2 := tail_ne_ptr addr l1 l2 v (by rw [← hsplit]; exact hd) hv
    have hvmem : v ∈ sl.Validators := by rw [hsplit]; simp
    have hp1 : ∀ u ∈ l1, u.Balance ≠ v.Balance := fun u hu' =>
      hu v hvmem u (by rw [hsplit]; exact List.mem_append_left _ hu') hv (hl1 u hu')
    have hp2 : ∀ u ∈ l2, u.Balance ≠ v.Balance := fun u hu' =>
      hu v hvmem u (by rw [hsplit]; exact List.mem_append_right _ (List.mem_cons_of_mem _ hu'))
        hv (hl2 u hu')
    have hval : (valuesOf sl).Validators
        = l1.map (valueOf sl.store) ++ valueOf sl.store v :: l2.map (valueOf sl.store) := by
      unfold valuesOf
      rw [hsplit, List.map_append, List.map_cons]
    have hsome := removeLoop_append addr (sl.store balance) []
      (l1.map (valueOf sl.store)) (l2.map (valueOf sl.store)) (valueOf sl.store v) hv
      (by
        intro w hw
        obtain ⟨u, hu', rfl⟩ := List.mem_map.1 hw
        exact hl1 u hu')
    unfold RemoveValidatorPtr RemoveValidator
    rw [hval, hsome, hsplit, removeLoopPtr_append _ _ _ [] l1 l2 v hv hl1]
    have hbal : (valueOf sl.store v).Balance = sl.store v.Balance := rfl
    rw [hbal]
    by_cases hgt : sl.store v.Balance > sl.store balance
    · rw [if_pos hgt, if_pos hgt]
      refine ⟨rfl, ?_⟩
      show (⟨(sortSortPtr _).map (valueOf _)⟩ : ValidatorList) = ⟨sortSort _⟩
      rw [sortSortPtr_map, List.nil_append, List.nil_append, List.map_append, List.map_cons,
        valueOf_storeSet _ _ _ l1 hp1, valueOf_storeSet _ _ _ l2 hp2]
      simp [valueOf, storeSet]
    · rw [if_neg hgt, if_neg hgt]
      by_cases heq : sl.store v.Balance = sl.store balance
      · rw [if_pos heq]
        refine ⟨rfl, ?_⟩
        show (⟨(_ : List ValidatorPtr).map (valueOf _)⟩ : ValidatorList) = ⟨_⟩
        rw [List.nil_append, List.nil_append, List.map_append,
          valueOf_storeSet _ _ _ l1 hp1, valueOf_storeSet _ _ _ l2 hp2]
      · rw [if_neg heq]
        refine ⟨rfl, ?_⟩
        show (⟨(_ : List ValidatorPtr).map (valueOf _)⟩ : ValidatorList) = ⟨_⟩
        rw [List.nil_append, List.nil_append, List.map_append]

/-! ## Join accounting and frame with shared balances -/

/-- Counterexample to C18: in the list where `A` and `B` share their balance,
a top-up of `A` by 25 changes the record of `B` from 100 to 125. -/
theorem mutation_frame_counterexample :
    (addrs (valuesOf sharedAB)).Nodup ∧
    othersOf (valuesOf sharedAB) addrA = [⟨addrB, 100, Address.empty⟩] ∧
    othersOf (valuesOf (AddValidatorPtr sharedAB addrA 1 Address.empty).2) addrA
      = [⟨addrB, 125, Address.empty⟩] ∧
    ¬ (othersOf (valuesOf (AddValidatorPtr sharedAB addrA 1 Address.empty).2) addrA).Perm
        (othersOf (valuesOf sharedAB) addrA) := by
  refine ⟨by decide, by decide, by decide, fun h => ?_⟩
  have hmem := h.subset
    (show (⟨addrB, 125, Address.empty⟩ : Validator)
      ∈ othersOf (valuesOf (AddValidatorPtr sharedAB addrA 1 Address.empty).2) addrA
      from by decide)
  revert hmem
  decide

/-- C18 (amended). Frame of stake mutations: on a list with pairwise distinct
record addresses in which the record of `addr`, if there is one, shares its
balance (`*big.Int`) with no other record, after `AddValidator(addr, amount,
proxy)` and after `RemoveValidator(addr, amount)` the records whose `Addr`
differs from `addr` are exactly those of the list before the call, with the
same `Addr`, `Balance` and `Proxy`: none is added, removed or modified. -/
theorem mutation_frame_unshared (sl : SharedList) (addr : Address) (amount : Nat)
    (proxy : Address) (hd : (addrs (valuesOf sl)).Nodup) (hu : Unshared sl addr) :
    (othersOf (valuesOf (AddValidatorPtr sl addr amount proxy).2) addr).Perm
      (othersOf (valuesOf sl) addr) ∧
    (othersOf (valuesOf (RemoveValidatorPtr sl addr amount).2) addr).Perm
      (othersOf (valuesOf sl) addr) := by
  have hd' : (sl.Validators.map (fun r => r.Addr)).Nodup := by
    have : addrs (valuesOf sl) = sl.Validators.map (fun r => r.Addr) := by
      unfold addrs valuesOf
      rw [List.map_map]
      rfl
    rw [← this]
    exact hd
  rw [(AddValidatorPtr_values sl addr amount proxy hd' hu).2,
    (RemoveValidatorPtr_values sl addr amount hd' hu).2]
  exact mutation_frame_values (valuesOf sl) addr (sl.store amount) proxy

/-- Witness for C18 (amended): a top-up and a withdrawal of 25 for `A` in the
scenario list, whose three balances are behind three pointers. -/
theorem mutation_frame_unshared_witness :
    (addrs (valuesOf unsharedABC)).Nodup ∧ Unshared unsharedABC addrA ∧
    ((othersOf (valuesOf (AddValidatorPtr unsharedABC addrA 3 addrC).2) addrA).Perm
      (othersOf (valuesOf unsharedABC) addrA) ∧
    (othersOf (valuesOf (RemoveValidatorPtr unsharedABC addrA 3).2) addrA).Perm
      (othersOf (valuesOf unsharedABC) addrA)) :=
  ⟨by decide, by unfold Unshared; decide,
    mutation_frame_unshared unsharedABC addrA 3 addrC (by decide)
      (by unfold Unshared; decide)⟩

/-! ## Join followed by withdraw, with shared balances -/

/-- Two strictly ascending lists of the same records are the same list. -/
theorem eq_of_perm_of_strict_ptr (l1 l2 : List ValidatorPtr) (hp : l1.Perm l2)
    (h1 : l1.Pairwise (fun a b => a.Addr.big < b.Addr.big))
    (h2 : l2.Pairwise (fun a b => a.Addr.big < b.Addr.big)) : l1 = l2 := by
  haveI : IsAntisymm ValidatorPtr (fun a b => a.Addr.big < b.Addr.big) :=
    ⟨fun _ _ hab hba => absurd hab (Nat.lt_asymm hba)⟩
  exact List.eq_of_perm_of_sorted hp h1 h2

theorem strict_ptr_of_values (sl : SharedList) (h : StrictlyAscending (valuesOf sl)) :
    sl.Validators.Pairwise (fun a b => a.Addr.big < b.Addr.big) := by
  have h' : (sl.Validators.map (valueOf sl.store)).Pairwise
      (fun a b => a.Addr.big < b.Addr.big) := h
  rw [List.pairwise_map] at h'
  exact h'

theorem storeSet_restore (store : Nat → Int) (p q : Nat) (hpq : q ≠ p) :
    storeSet (storeSet store p (store p + store q)) p
        (storeSet store p (store p + store q) p - storeSet store p (store p + store q) q)
      = store := by
  funext r
  unfold storeSet
  by_cases hr : r = p
  · rw [if_pos hr, if_pos rfl, if_neg hpq, hr]
    omega
  · rw [if_neg hr, if_neg hr]

/-- Counterexample to C19: the list holds the one record of `A`, with balance
100 behind pointer 0, and the amount handed to both calls is that same
pointer (what `StakeBalance(A)` returns).  The join doubles the shared
integer, the withdrawal then finds balance and amount equal and deletes the
record: both calls return true and the list is left empty. -/
theorem join_withdraw_round_trip_counterexample :
    StrictlyAscending (valuesOf singleA) ∧
    (∃ v ∈ (valuesOf singleA).Validators, v.Addr = addrA ∧ 0 < v.Balance) ∧
    (AddValidatorPtr singleA addrA 0 Address.empty).1 = true ∧
    (RemoveValidatorPtr (AddValidatorPtr singleA addrA 0 Address.empty).2 addrA 0).1 = true ∧
    (RemoveValidatorPtr (AddValidatorPtr singleA addrA 0 Address.empty).2 addrA 0).2.Validators
      = [] ∧
    valuesOf (RemoveValidatorPtr (AddValidatorPtr singleA addrA 0 Address.empty).2 addrA 0).2
      ≠ valuesOf singleA := by
  refine ⟨by unfold StrictlyAscending; decide, by decide, by decide, by decide, by decide,
    by decide⟩

/-- C19 (amended). Join/withdraw round trip: on a list `S` strictly ascending
by address key, if either `S` has no record of `addr` and the amount is not a
`*big.Int` held as balance by a record of `S` (any proxy argument), or `S` has
a record of `addr` with a balance `> 0` that is not the amount's own
`*big.Int` and the proxy argument is the empty address, then
`AddValidator(addr, a, proxy)` followed by `RemoveValidator(addr, a)` returns
true both times and leaves a list equal to `S`: same records, balances,
proxies and order. -/
theorem join_withdraw_round_trip (sl : SharedList) (addr : Address) (amount : Nat)
    (proxy : Address) (hs : StrictlyAscending (valuesOf sl))
    (h : ((∀ v ∈ sl.Validators, v.Addr ≠ addr) ∧ amount ∉ pointersOf sl) ∨
      ((∃ v ∈ sl.Validators, v.Addr = addr ∧ 0 < sl.store v.Balance ∧ v.Balance ≠ amount) ∧
        proxy = Address.empty)) :
    (AddValidatorPtr sl addr amount proxy).1 = true ∧
    (RemoveValidatorPtr (AddValidatorPtr sl addr amount proxy).2 addr amount).1 = true ∧
    (RemoveValidatorPtr (AddValidatorPtr sl addr amount proxy).2 addr amount).2.Validators
      = sl.Validators ∧
    valuesOf (RemoveValidatorPtr (AddValidatorPtr sl addr amount proxy).2 addr amount).2
      = valuesOf sl := by
  have hstrict := strict_ptr_of_values sl hs
  have hd : (sl.Validators.map (fun r => r.Addr)).Nodup := by
    rw [List.Nodup, List.pairwise_map]
    exact hstrict.imp (fun hab heq => by rw [heq] at hab; exact Nat.lt_irrefl _ hab)
  rcases h with ⟨hno, hfresh⟩ | ⟨⟨u, hu, hua, hpos, hne⟩, hproxy⟩
  · -- no record of `addr`: the new record keeps the amount pointer
    have hunshared : Unshared sl addr := fun v hv _ _ hva _ => absurd hva (hno v hv)
    have hadd : AddValidatorPtr sl addr amount proxy
        = (true, ⟨sl.store, sortSortPtr (sl.Validators ++ [⟨addr, amount, proxy⟩])⟩) := by
      unfold AddValidatorPtr
      rw [addLoopPtr_none _ _ _ _ _ _ hno]
    have hsortedR : (sortSortPtr (sl.Validators ++ [⟨addr, amount, proxy⟩])).Pairwise
        (fun a b => a.Addr.big < b.Addr.big) := by
      have hval := (AddValidatorPtr_values sl addr amount proxy hd hunshared).2
      have hstr := AddValidator_strict (valuesOf sl) addr (sl.store amount) proxy hs
      rw [← hval, hadd] at hstr
      exact strict_ptr_of_values _ hstr
    have hperm := sortSortPtr_perm (sl.Validators ++ [⟨addr, amount, proxy⟩])
    have hmem : (⟨addr, amount, proxy⟩ : ValidatorPtr)
        ∈ sortSortPtr (sl.Validators ++ [⟨addr, amount, proxy⟩]) :=
      hperm.mem_iff.2 (List.mem_append_right _ (List.mem_singleton_self _))
    obtain ⟨r1, r2, hsplit⟩ := List.append_of_mem hmem
    rw [hsplit] at hsortedR hperm
    have hr1 : ∀ w ∈ r1, w.Addr ≠ addr := by
      intro w hw hwa
      have hlt := (List.pairwise_append.1 hsortedR).2.2 w hw _ (List.mem_cons_self _ _)
      rw [hwa] at hlt
      exact Nat.lt_irrefl _ hlt
    have hrest : r1 ++ r2 = sl.Validators := by
      apply eq_of_perm_of_strict_ptr
      · have hp2 : ((⟨addr, amount, proxy⟩ : ValidatorPtr) :: (r1 ++ r2)).Perm
            ((⟨addr, amount, proxy⟩ : ValidatorPtr) :: sl.Validators) :=
          List.perm_middle.symm.trans (hperm.trans (List.perm_append_singleton _ _))
        exact hp2.cons_inv
      · exact hsortedR.sublist (List.Sublist.append_left (List.sublist_cons_self _ r2) r1)
      · exact hstrict
    have hrem : RemoveValidatorPtr
        ⟨sl.store, sortSortPtr (sl.Validators ++ [⟨addr, amount, proxy⟩])⟩ addr amount
        = (true, ⟨storeSet sl.store amount (sl.store amount - sl.store amount),
            sl.Validators⟩) := by
      unfold RemoveValidatorPtr
      show (match removeLoopPtr sl.store addr amount []
          (sortSortPtr (sl.Validators ++ [⟨addr, amount, proxy⟩])) with
        | some (store, vs) => (true, (⟨store, vs⟩ : SharedList))
        | none => (false, _)) = _
      rw [hsplit, removeLoopPtr_append _ _ _ [] r1 r2 ⟨addr, amount, proxy⟩ rfl hr1,
        if_neg (lt_irrefl _), if_pos rfl, List.nil_append, hrest]
    rw [hadd]
    show true = true ∧ _
    rw [hrem]
    refine ⟨rfl, rfl, rfl, ?_⟩
    show (⟨sl.Validators.map (valueOf _)⟩ : ValidatorList) = ⟨sl.Validators.map (valueOf _)⟩
    rw [valueOf_storeSet]
    intro w hw hwa
    exact hfresh (by rw [← hwa]; exact List.mem_map_of_mem _ hw)
  · -- a record of `addr` with a positive balance, and no proxy argument
    rcases first_split addr sl.Validators with hno | ⟨l1, v, l2, hsplit, hv, hl1⟩
    · exact absurd hua (hno u hu)
    · have hl2 := tail_ne_ptr addr l1 l2 v (by rw [← hsplit]; exact hd) hv
      have huv : u = v := by
        rw [hsplit] at hu
        rcases List.mem_append.1 hu with hm | hm
        · exact absurd hua (hl1 u hm)
        · rcases List.mem_cons.1 hm with hm | hm
          · exact hm
          · exact absurd hua (hl2 u hm)
      subst huv
      have hsorted : (l1 ++ u :: l2).Pairwise (fun a b => a.Addr.big ≤ b.Addr.big) := by
        rw [← hsplit]
        exact hstrict.imp (fun hab => Nat.le_of_lt hab)
      have hsame : ({ u with Proxy := if proxy ≠ Address.empty then proxy else u.Proxy }
          : ValidatorPtr) = u := by
        rw [hproxy, if_neg (not_not.2 rfl)]
      have hadd : AddValidatorPtr sl addr amount proxy
          = (true, ⟨storeSet sl.store u.Balance (sl.store u.Balance + sl.store amount),
              l1 ++ u :: l2⟩) := by
        unfold AddValidatorPtr
        rw [hsplit, addLoopPtr_append _ _ _ _ [] l1 l2 u hv hl1, hsame, List.nil_append,
          sortSortPtr_of_sorted _ hsorted]
      have hgt : storeSet sl.store u.Balance (sl.store u.Balance + sl.store amount) u.Balance
          > storeSet sl.store u.Balance (sl.store u.Balance + sl.store amount) amount := by
        unfold storeSet
        rw [if_pos rfl, if_neg (Ne.symm hne)]
        omega
      have hrem : RemoveValidatorPtr
          ⟨storeSet sl.store u.Balance (sl.store u.Balance + sl.store amount), l1 ++ u :: l2⟩
          addr amount = (true, ⟨sl.store, l1 ++ u :: l2⟩) := by
        unfold RemoveValidatorPtr
        show (match removeLoopPtr
            (storeSet sl.store u.Balance (sl.store u.Balance + sl.store amount)) addr amount []
            (l1 ++ u :: l2) with
          | some (store, vs) => (true, (⟨store, vs⟩ : SharedList))
          | none => (false, _)) = _
        rw [removeLoopPtr_append _ _ _ [] l1 l2 u hv hl1, if_pos hgt, List.nil_append,
          sortSortPtr_of_sorted _ hsorted,
          storeSet_restore sl.store u.Balance amount (Ne.symm hne)]
      rw [hadd]
      show true = true ∧ _
      rw [hrem]
      refine ⟨rfl, rfl, hsplit.symm, ?_⟩
      show (⟨(l1 ++ u :: l2).map (valueOf sl.store)⟩ : ValidatorList) = _
      rw [← hsplit]
      rfl

/-- Witness for C19 (amended): `A` holds 100 in the scenario list, tops up by
the 25 behind pointer 3 with no proxy and withdraws the same amount. -/
theorem join_withdraw_round_trip_witness :
    StrictlyAscending (valuesOf unsharedABC) ∧
    (((∀ v ∈ unsharedABC.Validators, v.Addr ≠ addrA) ∧ 3 ∉ pointersOf unsharedABC) ∨
      ((∃ v ∈ unsharedABC.Validators,
          v.Addr = addrA ∧ 0 < unsharedABC.store v.Balance ∧ v.Balance ≠ 3) ∧
        Address.empty = Address.empty)) ∧
    (AddValidatorPtr unsharedABC addrA 3 Address.empty).1 = true ∧
    (RemoveValidatorPtr (AddValidatorPtr unsharedABC addrA 3 Address.empty).2 addrA 3).1
      = true ∧
    (RemoveValidatorPtr (AddValidatorPtr unsharedABC addrA 3 Address.empty).2 addrA 3).2.Validators
      = unsharedABC.Validators ∧
    valuesOf (RemoveValidatorPtr (AddValidatorPtr unsharedABC addrA 3 Address.empty).2 addrA 3).2
      = valuesOf unsharedABC :=
  ⟨by unfold StrictlyAscending; decide, by decide,
    join_withdraw_round_trip unsharedABC addrA 3 Address.empty
      (by unfold StrictlyAscending; decide) (by decide)⟩

end Wormholes
